import Mathlib

/-!
Verification of the statutory-text addressing and annotation engine of the
title17usc repository.  The definitions below are shallow embeddings of the
TypeScript functions in `src/src/App.tsx` and `src/uscode/src/App.tsx`:
the hierarchical address codec (`parseHash` / `viewToHash`), the structural
path builder (`buildParaMetaMap`), the definition extractor
(`parseSec101Defs`) and the term annotator (`buildTermAnnotator`).
Strings are modelled as lists of characters; JavaScript regular-expression
behaviour is modelled by equivalent deterministic scanners (the regexes used
by the source are ambiguity-free, so maximal-munch scanning coincides with
backtracking search).  Case operations are modelled on the ASCII range,
which covers the repository's machine-generated markup.
-/

namespace T17

/-! ### Character classes (JavaScript semantics, ASCII-range case folding) -/

/-- `\d` of JavaScript regexes: an ASCII decimal digit. -/
def isDigitC (c : Char) : Bool := 48 ≤ c.toNat && c.toNat ≤ 57

/-- `[A-Z]`: an ASCII capital letter. -/
def isUpperC (c : Char) : Bool := 65 ≤ c.toNat && c.toNat ≤ 90

/-- `\w` of JavaScript regexes: `[A-Za-z0-9_]`. -/
def isWordC (c : Char) : Bool :=
  (97 ≤ c.toNat && c.toNat ≤ 122) || (65 ≤ c.toNat && c.toNat ≤ 90) ||
  (48 ≤ c.toNat && c.toNat ≤ 57) || c.toNat == 95

/-- `\s` of JavaScript regexes: whitespace and line terminators. -/
def isWsC (c : Char) : Bool :=
  (9 ≤ c.toNat && c.toNat ≤ 13) || c.toNat == 32 || c.toNat == 160 ||
  c.toNat == 0x1680 || (0x2000 ≤ c.toNat && c.toNat ≤ 0x200a) ||
  c.toNat == 0x2028 || c.toNat == 0x2029 || c.toNat == 0x202f ||
  c.toNat == 0x205f || c.toNat == 0x3000 || c.toNat == 0xfeff

/-- `.` of JavaScript regexes without the `s` flag: anything but a line
terminator. -/
def isDotC (c : Char) : Bool :=
  !(c.toNat == 10 || c.toNat == 13 || c.toNat == 0x2028 || c.toNat == 0x2029)

/-! ### The title-qualified address codec (`src/uscode/src/App.tsx`) -/

/-- The navigation-target type of the multi-title viewer (`ViewState` in
`src/uscode/src/App.tsx`). -/
inductive ViewState where
  | home : ViewState
  | title (titleNum : String) : ViewState
  | sect (titleNum sectionNum : String) (paragraphAnchor : Option String) :
      ViewState
deriving DecidableEq, Repr

/-- `hash.replace(/^#\/?/, '')`: strip a leading `#` and at most one `/`
after it. -/
def stripHash (s : List Char) : List Char :=
  match s with
  | '#' :: '/' :: rest => rest
  | '#' :: rest => rest
  | s => s

/-- Scanner for `\d+[A-Z]*`: a nonempty digit run followed by a capital run
(both maximal).  Returns the matched characters and the remainder. -/
def takeNum (s : List Char) : Option (List Char × List Char) :=
  let ds := s.takeWhile isDigitC
  if ds.isEmpty then none
  else
    let r1 := s.dropWhile isDigitC
    let cs := r1.takeWhile isUpperC
    some (ds ++ cs, r1.dropWhile isUpperC)

/-- Literal-prefix scanner: consume exactly `p` from the front of `s`. -/
def takeLit (p s : List Char) : Option (List Char) :=
  match p, s with
  | [], s => some s
  | c :: p, d :: s => if c = d then takeLit p s else none
  | _ :: _, [] => none

/-- `^t(\d+[A-Z]*)\/s(\d+[A-Z]*)\/def\/(.+)$`: the definition-anchor
pattern of `parseHash`. -/
def matchDef (h : List Char) : Option (List Char × List Char × List Char) :=
  match takeLit ['t'] h with
  | none => none
  | some h1 =>
    match takeNum h1 with
    | none => none
    | some (tn, h2) =>
      match takeLit ['/', 's'] h2 with
      | none => none
      | some h3 =>
        match takeNum h3 with
        | none => none
        | some (sn, h4) =>
          match takeLit ['/', 'd', 'e', 'f', '/'] h4 with
          | none => none
          | some slug =>
            if !slug.isEmpty && slug.all isDotC then some (tn, sn, slug)
            else none

/-- `^t(\d+[A-Z]*)\/s(\d+[A-Z]*)(\(.+)$`: the paragraph-anchor pattern of
`parseHash`.  The third component is the anchor including its opening
parenthesis. -/
def matchSecParen (h : List Char) :
    Option (List Char × List Char × List Char) :=
  match takeLit ['t'] h with
  | none => none
  | some h1 =>
    match takeNum h1 with
    | none => none
    | some (tn, h2) =>
      match takeLit ['/', 's'] h2 with
      | none => none
      | some h3 =>
        match takeNum h3 with
        | none => none
        | some (sn, h4) =>
          match h4 with
          | '(' :: tail =>
            if !tail.isEmpty && tail.all isDotC then
              some (tn, sn, '(' :: tail)
            else none
          | _ => none

/-- `^t(\d+[A-Z]*)\/s(\d+[A-Z]*)$`: the bare-section pattern. -/
def matchSec (h : List Char) : Option (List Char × List Char) :=
  match takeLit ['t'] h with
  | none => none
  | some h1 =>
    match takeNum h1 with
    | none => none
    | some (tn, h2) =>
      match takeLit ['/', 's'] h2 with
      | none => none
      | some h3 =>
        match takeNum h3 with
        | none => none
        | some (sn, h4) => if h4.isEmpty then some (tn, sn) else none

/-- `^t(\d+[A-Z]*)$`: the title-only pattern. -/
def matchTitle (h : List Char) : Option (List Char) :=
  match takeLit ['t'] h with
  | none => none
  | some h1 =>
    match takeNum h1 with
    | none => none
    | some (tn, h2) => if h2.isEmpty then some tn else none

/-- The body of `parseHash` after hash-stripping: try the
definition-anchor, paragraph-anchor, bare-section and title-only patterns
in that order, falling back to the home target. -/
def parseHashCore (h : List Char) : ViewState :=
  if h.isEmpty then .home
  else
    match matchDef h with
    | some (tn, sn, slug) =>
      .sect ⟨tn⟩ ⟨sn⟩ (some ⟨'d' :: 'e' :: 'f' :: '/' :: slug⟩)
    | none =>
      match matchSecParen h with
      | some (tn, sn, anchor) => .sect ⟨tn⟩ ⟨sn⟩ (some ⟨anchor⟩)
      | none =>
        match matchSec h with
        | some (tn, sn) => .sect ⟨tn⟩ ⟨sn⟩ none
        | none =>
          match matchTitle h with
          | some tn => .title ⟨tn⟩
          | none => .home

/-- `parseHash` of `src/uscode/src/App.tsx`. -/
def parseHash (hash : String) : ViewState :=
  parseHashCore (stripHash hash.toList)

/-- `p.startsWith q` on character lists. -/
def startsWithL : List Char → List Char → Bool
  | [], _ => true
  | _ :: _, [] => false
  | c :: p, d :: s => if c = d then startsWithL p s else false

/-- `viewToHash` of `src/uscode/src/App.tsx`. -/
def viewToHash (view : ViewState) : String :=
  match view with
  | .home => "#"
  | .title tn => "#t" ++ tn
  | .sect tn sn anchor =>
    let a :=
      match anchor with
      | none => ""
      | some p =>
        if startsWithL ['d', 'e', 'f', '/'] p.toList then "/" ++ p else p
    "#t" ++ tn ++ "/s" ++ sn ++ a

/-! ### The single-title codec (`src/src/App.tsx`, second revision) -/

/-- The navigation-target type of the single-title viewer (`ViewState` in
`src/src/App.tsx`). -/
inductive ViewStateS where
  | home : ViewStateS
  | chapter (chapterNum : String) : ViewStateS
  | sect (sectionNum : String) (paragraphAnchor : Option String) :
      ViewStateS
deriving DecidableEq, Repr

/-- `^(\d+[A-Z]*)\/def\/(.+)$` applied to the part after `section/`. -/
def matchDefS (rest : List Char) : Option (List Char × List Char) :=
  match takeNum rest with
  | none => none
  | some (sn, r1) =>
    match takeLit ['/', 'd', 'e', 'f', '/'] r1 with
    | none => none
    | some slug =>
      if !slug.isEmpty && slug.all isDotC then some (sn, slug) else none

/-- `rest.indexOf('(')` as an option. -/
def indexOfParen (rest : List Char) : Option Nat :=
  rest.findIdx? (· = '(')

/-- The body of the single-title `parseHash` after hash-stripping. -/
def parseHashCoreS (h : List Char) : ViewStateS :=
  if h.isEmpty then .home
  else
    match takeLit ['s', 'e', 'c', 't', 'i', 'o', 'n', '/'] h with
    | some rest =>
      match matchDefS rest with
      | some (sn, slug) =>
        .sect ⟨sn⟩ (some ⟨'d' :: 'e' :: 'f' :: '/' :: slug⟩)
      | none =>
        match indexOfParen rest with
        | some idx =>
          if 0 < idx then
            .sect ⟨rest.take idx⟩ (some ⟨rest.drop idx⟩)
          else .sect ⟨rest⟩ none
        | none => .sect ⟨rest⟩ none
    | none =>
      match takeLit ['c', 'h', 'a', 'p', 't', 'e', 'r', '/'] h with
      | some rest => .chapter ⟨rest⟩
      | none => .home

/-- `parseHash` of `src/src/App.tsx` (lines 2111–2139): the single-title
decoder with definition and paragraph anchors. -/
def parseHashS (hash : String) : ViewStateS :=
  parseHashCoreS (stripHash hash.toList)

/-- `viewToHash` of `src/src/App.tsx` (lines 2141–2147).  Note that the
section case emits only the section number: the paragraph anchor is
dropped. -/
def viewToHashS (view : ViewStateS) : String :=
  match view with
  | .sect sn _ => "#section/" ++ sn
  | .chapter cn => "#chapter/" ++ cn
  | .home => "#"

/-! ### Well-formed navigation targets

A target is constructible when its identifiers have the shapes the source
data uses: titles and sections are a digit run optionally followed by
capitals (`17`, `2A`, `106`, `512B`), and a paragraph anchor is either a
parenthesised structural path or `def/` followed by a slug. -/

/-- `\d+[A-Z]*` as a predicate on a whole character list. -/
def numShapeL (s : List Char) : Bool :=
  !(s.takeWhile isDigitC).isEmpty && (s.dropWhile isDigitC).all isUpperC

/-- A representable paragraph anchor: `(`-initial structural path or a
`def/`-prefixed slug, nonempty and free of line terminators. -/
def anchorOkL : List Char → Bool
  | '(' :: tail => !tail.isEmpty && tail.all isDotC
  | 'd' :: 'e' :: 'f' :: '/' :: slug => !slug.isEmpty && slug.all isDotC
  | _ => false

/-- Constructible targets of the title-qualified codec. -/
def wfView : ViewState → Prop
  | .home => True
  | .title tn => numShapeL tn.toList = true
  | .sect tn sn anchor =>
    numShapeL tn.toList = true ∧ numShapeL sn.toList = true ∧
    (anchor = none ∨ ∃ p, anchor = some p ∧ anchorOkL p.toList = true)

/-- Constructible targets of the single-title codec. -/
def wfViewS : ViewStateS → Prop
  | .home => True
  | .chapter _ => True
  | .sect sn anchor =>
    numShapeL sn.toList = true ∧
    (anchor = none ∨ ∃ p, anchor = some p ∧ anchorOkL p.toList = true)

/-- A head character that blocks further `\d+[A-Z]*` munching. -/
def headBlocks (l : List Char) : Prop :=
  ∀ c, l.head? = some c → isDigitC c = false ∧ isUpperC c = false

/-- Absence of a paragraph anchor on a single-title target. -/
def anchorFreeS : ViewStateS → Prop
  | .sect _ a => a = none
  | _ => True

/-! ### The structural path builder (`src/src/App.tsx` lines 734–766) -/

/-- One structural or prose unit of a section body. -/
structure ContentBlock where
  type : String
  indent : Nat
  html : String
deriving DecidableEq, Repr

/-- The block types that denote structural subdivisions
(`STRUCTURAL_TYPES` in the source). -/
def STRUCTURAL_TYPES : List String :=
  ["subsection", "paragraph", "subparagraph", "clause", "subclause",
   "item", "subitem"]

def isStructural (b : ContentBlock) : Bool := STRUCTURAL_TYPES.contains b.type

/-- `splitBlockHtml`: match `^<span class="num">([^<]*)<\/span>([\s\S]*)`,
returning the designator text and the rest of the markup. -/
def splitBlockHtmlL (html : List Char) : Option (List Char × List Char) :=
  match takeLit ("<span class=\"num\">".toList) html with
  | none => none
  | some r1 =>
    let numText := r1.takeWhile (fun c => c ≠ '<')
    let r2 := r1.dropWhile (fun c => c ≠ '<')
    match takeLit ("</span>".toList) r2 with
    | none => none
    | some rest => some (numText, rest)

/-- JavaScript `String.trim()`: strip whitespace from both ends. -/
def trimL (s : List Char) : List Char :=
  ((s.dropWhile isWsC).reverse.dropWhile isWsC).reverse

/-- One entry of the paragraph-metadata map. -/
structure ParaMeta where
  path : String
  id : String
deriving DecidableEq, Repr

/-- The joined designator path of a stack (head is the deepest entry). -/
def pathOf (st : List (Nat × String)) : String :=
  String.join (st.reverse.map (fun e => e.2))

/-- The worker of `buildParaMetaMap`: walk the blocks keeping a stack of
`(indent, designator)` pairs, popping entries at the same or deeper indent
before pushing the current block's designator. -/
def buildPara (st : List (Nat × String)) (i : Nat) (secNum : String) :
    List ContentBlock → List (Nat × ParaMeta)
  | [] => []
  | b :: rest =>
    if isStructural b then
      match splitBlockHtmlL b.html.toList with
      | none => buildPara st (i + 1) secNum rest
      | some (numText, _) =>
        let st' := (b.indent, (⟨trimL numText⟩ : String)) ::
          st.dropWhile (fun e => b.indent ≤ e.1)
        let path := pathOf st'
        (i, ⟨path, "p-" ++ secNum ++ path⟩) ::
          buildPara st' (i + 1) secNum rest
    else buildPara st (i + 1) secNum rest

/-- `buildParaMetaMap` of `src/src/App.tsx` (lines 747–766), as the
association list of the produced `Map` in insertion order. -/
def buildParaMetaMap (content : List ContentBlock) (sectionNum : String) :
    List (Nat × ParaMeta) :=
  buildPara [] 0 sectionNum content

/-- Lookup in the paragraph-metadata map. -/
def mapGetN (l : List (Nat × ParaMeta)) (k : Nat) : Option ParaMeta :=
  (l.find? (fun e => e.1 = k)).map (fun e => e.2)

/-- Depth-contiguity of a block sequence: every structural block with a
readable designator sits at an indent no deeper than one past its open
ancestors (the spec's "no block's depth skips a level"). -/
def contigB (k : Nat) : List ContentBlock → Bool
  | [] => true
  | b :: rest =>
    if isStructural b then
      match splitBlockHtmlL b.html.toList with
      | none => contigB k rest
      | some _ => decide (b.indent ≤ k) && contigB (b.indent + 1) rest
    else contigB k rest

/-- The designator a structural block contributes, when readable. -/
def designatorOf (b : ContentBlock) : Option String :=
  (splitBlockHtmlL b.html.toList).map (fun pr => (⟨trimL pr.1⟩ : String))

/-- A token that is the designator of some structural block of the
sequence. -/
def tokenFrom (full : List ContentBlock) (t : String) : Prop :=
  ∃ b ∈ full, isStructural b = true ∧ designatorOf b = some t

/-! ### Claim C5: malformed structural blocks are skipped -/

/-- Increment the indices of entries at or past a threshold. -/
def shiftFrom (t : Nat) (l : List (Nat × ParaMeta)) : List (Nat × ParaMeta) :=
  l.map (fun e => if t ≤ e.1 then (e.1 + 1, e.2) else e)

/-! ### The term annotator (`src/src/App.tsx` lines 818–855)

`buildTermAnnotator` filters out records with empty term or slug, sorts the
rest by term length descending (stable, matching the engine's stable sort
with the `b.term.length - a.term.length` comparator), builds a lookup table
keyed by the lowercased term in which a later record overwrites an earlier
one with the same key (JavaScript `Map` constructor semantics), and builds
one case-insensitive alternation `\b(t1|t2|…)\b` whose space characters
match whitespace runs.  A fragment is split on `(<[^>]+>)`; tag segments
pass through unchanged and text segments are rewritten by the single
substitution pass.  Case folding is modelled on the ASCII range, and a
greedy whitespace run is never re-shrunk (faithful whenever no term has two
adjacent spaces or a trailing space). -/

structure TermDef where
  term : String
  slug : String
  source : String
deriving DecidableEq, Repr

structure TermInfo where
  slug : String
  source : String
deriving DecidableEq, Repr

/-- ASCII lower-casing on code points. -/
def lowNat (n : Nat) : Nat := if 65 ≤ n ∧ n ≤ 90 then n + 32 else n

/-- Case-insensitive character comparison (the `i` regex flag). -/
def lowEqC (a b : Char) : Bool := lowNat a.toNat == lowNat b.toNat

/-- The lookup key of `infoByLower`: the lowercased term, as its code
points. -/
def lowerKey (s : List Char) : List Nat := s.map (fun c => lowNat c.toNat)

/-- Stable insertion into a length-descending sorted list: an element goes
after every strictly longer element and after earlier equal-length ones. -/
def insertByLen (x : TermDef) : List TermDef → List TermDef
  | [] => [x]
  | y :: ys =>
    if x.term.length < y.term.length then y :: insertByLen x ys
    else x :: y :: ys

/-- The engine's stable sort with comparator
`(a, b) => b.term.length - a.term.length`. -/
def sortByLenDesc : List TermDef → List TermDef
  | [] => []
  | x :: xs => insertByLen x (sortByLenDesc xs)

/-- JavaScript `Map` lookup where a later insertion overwrites an earlier
one with the same key. -/
def lookupLast (entries : List (List Nat × TermInfo)) (k : List Nat) :
    Option TermInfo :=
  entries.foldl (fun acc e => if e.1 = k then some e.2 else acc) none

/-- Match one term of the alternation: literal characters match
case-insensitively, a space matches a nonempty whitespace run.  Returns
the matched text and the remainder. -/
def matchTerm : List Char → List Char → Option (List Char × List Char)
  | [], s => some ([], s)
  | c :: ts, s =>
    if c = ' ' then
      let run := s.takeWhile isWsC
      if run.isEmpty then none
      else
        match matchTerm ts (s.dropWhile isWsC) with
        | none => none
        | some (m, rest) => some (run ++ m, rest)
    else
      match s with
      | [] => none
      | d :: s1 =>
        if lowEqC c d then
          match matchTerm ts s1 with
          | none => none
          | some (m, rest) => some (d :: m, rest)
        else none

def isWordO : Option Char → Bool
  | none => false
  | some c => isWordC c

/-- The `\b` assertion between a left and a right context character. -/
def boundary (prev next : Option Char) : Bool := isWordO prev != isWordO next

/-- Try the alternation's branches in order at one position; a branch
succeeds when its term matches and the trailing `\b` holds. -/
def tryAlts (s : List Char) : List TermDef → Option (List Char × List Char)
  | [] => none
  | t :: ts =>
    match matchTerm t.term.toList s with
    | some (m, rest) =>
      if !m.isEmpty && boundary m.getLast? rest.head? then some (m, rest)
      else tryAlts s ts
    | none => tryAlts s ts

/-- One attempt of `\b(alternation)\b` at a position with left context
`prev`. -/
def tryMatch (terms : List TermDef) (prev : Option Char) (s : List Char) :
    Option (List Char × List Char) :=
  if boundary prev s.head? then tryAlts s terms else none

/-- The replacement span
`<span class="def-term" data-slug="…" data-def-source="…">match</span>`. -/
def spanFor (info : TermInfo) (m : List Char) : List Char :=
  ("<span class=\"def-term\" data-slug=\"" ++ info.slug ++
    "\" data-def-source=\"" ++ info.source ++ "\">").toList ++ m ++
    ("</span>").toList

/-- Replace one match: wrap it when its lowercased text is in the table,
else pass it through unchanged. -/
def replaceMatch (entries : List (List Nat × TermInfo)) (m : List Char) :
    List Char :=
  match lookupLast entries (lowerKey m) with
  | some info => spanFor info m
  | none => m

/-- The global-replace scan over one text segment: at each position try the
alternation; on a match emit the replacement and continue after it, else
emit the character.  The fuel argument only forces structural recursion:
every step consumes at least one character, so fuel equal to the segment
length (as supplied by `annotateText`) never runs out. -/
def annotateTextGo (terms : List TermDef)
    (entries : List (List Nat × TermInfo)) :
    Nat → Option Char → List Char → List Char
  | 0, _, s => s
  | _ + 1, _, [] => []
  | fuel + 1, prev, c :: rest =>
    match tryMatch terms prev (c :: rest) with
    | some (m, after) =>
      if after.length < (c :: rest).length then
        replaceMatch entries m ++
          annotateTextGo terms entries fuel m.getLast? after
      else c :: annotateTextGo terms entries fuel (some c) rest
    | none => c :: annotateTextGo terms entries fuel (some c) rest

def annotateText (terms : List TermDef)
    (entries : List (List Nat × TermInfo)) (prev : Option Char)
    (s : List Char) : List Char :=
  annotateTextGo terms entries s.length prev s

/-- The worker of the `(<[^>]+>)` splitter: accumulate text until a
complete tag (`<`, one or more non-`>` characters, `>`) begins; a `<`
with no matching `>` ahead, or an immediate `>`, is ordinary text.  The
fuel argument only forces structural recursion: every step consumes at
least one character, so fuel equal to the input length (as supplied by
`splitTags`) never runs out. -/
def splitTagsGo (acc : List Char) : Nat → List Char → List (Bool × List Char)
  | 0, s => [(false, acc.reverse ++ s)]
  | _ + 1, [] => [(false, acc.reverse)]
  | fuel + 1, c :: rest =>
    if c = '<' then
      let inner := rest.takeWhile (fun d => d ≠ '>')
      let rest2 := rest.dropWhile (fun d => d ≠ '>')
      if inner.isEmpty then splitTagsGo (c :: acc) fuel rest
      else if rest2.isEmpty then splitTagsGo (c :: acc) fuel rest
      else (false, acc.reverse) :: (true, '<' :: (inner ++ ['>'])) ::
        splitTagsGo [] fuel rest2.tail
    else splitTagsGo (c :: acc) fuel rest

/-- `html.split(/(<[^>]+>)/g)` with tag segments flagged. -/
def splitTags (s : List Char) : List (Bool × List Char) :=
  splitTagsGo [] s.length s

/-- Rewrite one markup fragment: tag segments unchanged, text segments
through the substitution scan. -/
def annotateHtml (terms : List TermDef)
    (entries : List (List Nat × TermInfo)) (html : String) : String :=
  ⟨((splitTags html.toList).map
    (fun seg => if seg.1 then seg.2
      else annotateText terms entries none seg.2)).flatten⟩

/-- `buildTermAnnotator` of `src/src/App.tsx` (lines 824–855). -/
def buildTermAnnotator (termDefs : List TermDef) : String → String :=
  let terms := sortByLenDesc (termDefs.filter
    (fun d => !d.term.isEmpty && !d.slug.isEmpty))
  if terms.isEmpty then fun html => html
  else fun html => annotateHtml terms
    (terms.map (fun t =>
      (lowerKey t.term.toList, (⟨t.slug, t.source⟩ : TermInfo)))) html

/-! ### Claim C6: tag segments are never rewritten -/

/-- Whether one branch of the alternation matches at this position with a
valid trailing boundary. -/
def matchesAt (t : TermDef) (s : List Char) : Bool :=
  match matchTerm t.term.toList s with
  | some (m, rest) => !m.isEmpty && boundary m.getLast? rest.head?
  | none => false

/-- No position of `s` (with initial left context `prev`) matches any of
the records. -/
def noMatchFrom (termDefs : List TermDef) : Option Char → List Char → Bool
  | _, [] => true
  | prev, c :: rest =>
    (!(boundary prev (some c)) ||
      termDefs.all (fun t => !matchesAt t (c :: rest))) &&
    noMatchFrom termDefs (some c) rest

/-- Separator characters: ASCII punctuation and whitespace that carry no
word characters, no `<`, and no curly quotes. -/
def sepChars : List Char := [' ', '.', ',', ';', ':', '!', '?', '-', '\n']

def isSepC (c : Char) : Bool := sepChars.contains c

/-- A term whose space characters are each followed by a non-whitespace
character (so the alternation's greedy `\s+` consumes exactly it). -/
def noSpaceWs : List Char → Bool
  | [] => true
  | c :: rest =>
    (if c = ' ' then
      match rest.head? with
      | none => false
      | some d => !isWsC d
    else true) && noSpaceWs rest

/-- Shape of a term for which the alternation matches the term's own text
verbatim: nonempty, word characters at both ends, no space followed by
whitespace, and no `<` (which would open a tag segment). -/
def wfTermB (s : List Char) : Bool :=
  !s.isEmpty && isWordO s.head? && isWordO s.getLast? && noSpaceWs s &&
  s.all (fun c => ¬c = '<')

def lastO (l : List Char) (prev : Option Char) : Option Char :=
  match l.getLast? with
  | some c => some c
  | none => prev

/-! ### Claim C9: the §101 definition extractor
(`src/src/App.tsx` lines 770–799) -/

structure Sec101Def where
  indentClass : String
  innerHtml : String
  term : Option String
  slug : Option String
deriving DecidableEq, Repr

/-- `/\u201c([^\u201d]+)\u201d/`: the first curly-quoted span — the
leftmost `“` that is followed by at least one non-`”` character and a
closing `”`. -/
def findQuoted : List Char → Option (List Char)
  | [] => none
  | c :: rest =>
    if c = '“' then
      let inner := rest.takeWhile (fun d => d ≠ '”')
      let r2 := rest.dropWhile (fun d => d ≠ '”')
      if !inner.isEmpty && !r2.isEmpty then some inner
      else findQuoted rest
    else findQuoted rest

/-- ASCII lower-casing of one character (JavaScript `toLowerCase` on the
repository's ASCII terms). -/
def lowerChar (c : Char) : Char :=
  if isUpperC c then Char.ofNat (c.toNat + 32) else c

/-- `[a-z0-9]`, the characters kept by the slug normalization. -/
def isLowerAlnum (c : Char) : Bool :=
  (97 ≤ c.toNat && c.toNat ≤ 122) || (48 ≤ c.toNat && c.toNat ≤ 57)

/-- Collapse consecutive dashes to one (so that mapping each non-alnum
character to a dash models `replace(/[^a-z0-9]+/g, '-')`). -/
def squashDashes : List Char → List Char
  | [] => []
  | [c] => [c]
  | c :: d :: rest =>
    if c = '-' && d = '-' then squashDashes (d :: rest)
    else c :: squashDashes (d :: rest)

/-- `replace(/^-+|-+$/g, '')`: strip leading and trailing dash runs. -/
def trimDashes (s : List Char) : List Char :=
  ((s.dropWhile (fun c => c = '-')).reverse.dropWhile
    (fun c => c = '-')).reverse

/-- `term.toLowerCase().replace(/[^a-z0-9]+/g, '-').replace(/^-+|-+$/g, '')`. -/
def slugify (term : List Char) : String :=
  ⟨trimDashes (squashDashes ((term.map lowerChar).map
    (fun c => if isLowerAlnum c then c else '-')))⟩

/-- Build one `Sec101Def` from a matched paragraph: only `indent1`
paragraphs are scanned for a curly-quoted term. -/
def mkSec101Def (indentCls inner : List Char) : Sec101Def :=
  if indentCls = "indent1".toList then
    match findQuoted inner with
    | some term => ⟨⟨indentCls⟩, ⟨inner⟩, some ⟨term⟩, some (slugify term)⟩
    | none => ⟨⟨indentCls⟩, ⟨inner⟩, none, none⟩
  else ⟨⟨indentCls⟩, ⟨inner⟩, none, none⟩

/-- Split at the first occurrence of `</p>` (the lazy `([\s\S]*?)<\/p>`). -/
def splitAtClose : List Char → Option (List Char × List Char)
  | [] => none
  | c :: rest =>
    match takeLit ("</p>".toList) (c :: rest) with
    | some after => some ([], after)
    | none =>
      match splitAtClose rest with
      | none => none
      | some (before, after) => some (c :: before, after)

/-- One attempt of `<p class="(indent\d+)">([\s\S]*?)<\/p>` at a
position: returns the captured indent class, the inner markup, and the
remainder after `</p>`. -/
def matchP (s : List Char) : Option (List Char × List Char × List Char) :=
  match takeLit ("<p class=\"indent".toList) s with
  | none => none
  | some r1 =>
    let ds := r1.takeWhile isDigitC
    if ds.isEmpty then none
    else
      match takeLit ("\">".toList) (r1.dropWhile isDigitC) with
      | none => none
      | some r2 =>
        match splitAtClose r2 with
        | none => none
        | some (inner, after) =>
          some ("indent".toList ++ ds, inner, after)

/-- The global scan of `parseSec101Defs`: try the paragraph pattern at
each position, consuming through `</p>` on a match.  The fuel argument
only forces structural recursion: fuel equal to the input length never
runs out. -/
def parseSec101Go : Nat → List Char → List Sec101Def
  | 0, _ => []
  | _ + 1, [] => []
  | fuel + 1, c :: rest =>
    match matchP (c :: rest) with
    | some (indentCls, inner, after) =>
      mkSec101Def indentCls inner :: parseSec101Go fuel after
    | none => parseSec101Go fuel rest

/-- `parseSec101Defs` of `src/src/App.tsx` (lines 778–799). -/
def parseSec101Defs (html : String) : List Sec101Def :=
  parseSec101Go html.toList.length html.toList

/-! ### Scanner lemmas -/

theorem takeWhile_append_all {p : Char → Bool} :
    ∀ {a : List Char} (x : List Char), (∀ c ∈ a, p c = true) →
      (a ++ x).takeWhile p = a ++ x.takeWhile p
  | [], _, _ => rfl
  | c :: a, x, h => by
    simp only [List.cons_append, List.takeWhile_cons, h c (by simp),
      if_true, List.cons.injEq, true_and]
    exact takeWhile_append_all x fun d hd => h d (by simp [hd])

theorem dropWhile_append_all {p : Char → Bool} :
    ∀ {a : List Char} (x : List Char), (∀ c ∈ a, p c = true) →
      (a ++ x).dropWhile p = x.dropWhile p
  | [], _, _ => rfl
  | c :: a, x, h => by
    simp only [List.cons_append, List.dropWhile_cons, h c (by simp), if_true]
    exact dropWhile_append_all x fun d hd => h d (by simp [hd])

theorem takeWhile_nil_of_head {p : Char → Bool} {l : List Char}
    (h : ∀ c, l.head? = some c → p c = false) : l.takeWhile p = [] := by
  cases l with
  | nil => rfl
  | cons c rest => simp [List.takeWhile_cons, h c rfl]

theorem dropWhile_id_of_head {p : Char → Bool} {l : List Char}
    (h : ∀ c, l.head? = some c → p c = false) : l.dropWhile p = l := by
  cases l with
  | nil => rfl
  | cons c rest => simp [List.dropWhile_cons, h c rfl]

theorem isUpperC_not_digit {c : Char} (h : isUpperC c = true) :
    isDigitC c = false := by
  cases hb : isDigitC c with
  | false => rfl
  | true =>
    exfalso
    simp only [isUpperC, Bool.and_eq_true, decide_eq_true_eq] at h
    simp only [isDigitC, Bool.and_eq_true, decide_eq_true_eq] at hb
    omega

/-- Determinism of the `\d+[A-Z]*` scanner on a shaped identifier followed
by a non-identifier character (or nothing). -/
theorem takeNum_append {n rest : List Char} (hn : numShapeL n = true)
    (hr : headBlocks rest) : takeNum (n ++ rest) = some (n, rest) := by
  simp only [numShapeL, Bool.and_eq_true, Bool.not_eq_true',
    List.all_eq_true] at hn
  obtain ⟨hd, hcs⟩ := hn
  have hsplit : n.takeWhile isDigitC ++ n.dropWhile isDigitC = n :=
    List.takeWhile_append_dropWhile _ _
  have hdall : ∀ c ∈ n.takeWhile isDigitC, isDigitC c = true :=
    fun c hc => List.mem_takeWhile_imp hc
  have hdighead : ∀ c, ((n.dropWhile isDigitC) ++ rest).head? = some c →
      isDigitC c = false := by
    intro c hc
    cases hcs' : (n.dropWhile isDigitC) with
    | nil =>
      rw [hcs', List.nil_append] at hc
      exact (hr c hc).1
    | cons d ds =>
      rw [hcs', List.cons_append, List.head?_cons] at hc
      obtain rfl : d = c := Option.some.inj hc
      exact isUpperC_not_digit (hcs d (by rw [hcs']; exact List.mem_cons_self d ds))
  have huphead : ∀ c, rest.head? = some c → isUpperC c = false :=
    fun c hc => (hr c hc).2
  have h1 : (n ++ rest).takeWhile isDigitC = n.takeWhile isDigitC := by
    conv_lhs => rw [← hsplit, List.append_assoc]
    rw [takeWhile_append_all _ hdall, takeWhile_nil_of_head hdighead,
      List.append_nil]
  have h2 : (n ++ rest).dropWhile isDigitC = n.dropWhile isDigitC ++ rest := by
    conv_lhs => rw [← hsplit, List.append_assoc]
    rw [dropWhile_append_all _ hdall, dropWhile_id_of_head hdighead]
  have h3 : (n.dropWhile isDigitC ++ rest).takeWhile isUpperC =
      n.dropWhile isDigitC := by
    rw [takeWhile_append_all _ hcs, takeWhile_nil_of_head huphead,
      List.append_nil]
  have h4 : (n.dropWhile isDigitC ++ rest).dropWhile isUpperC = rest := by
    rw [dropWhile_append_all _ hcs, dropWhile_id_of_head huphead]
  simp only [takeNum, h1, h2, h3, h4, hd, Bool.false_eq_true, if_false,
    hsplit]

theorem takeNum_of_shape {n : List Char} (hn : numShapeL n = true) :
    takeNum n = some (n, []) := by
  have h := @takeNum_append _ [] hn (by intro c hc; simp at hc)
  simpa using h

theorem headBlocks_slash {l : List Char} : headBlocks ('/' :: l) := by
  intro c hc
  simp only [List.head?_cons, Option.some.injEq] at hc
  subst hc
  exact ⟨by decide, by decide⟩

theorem headBlocks_paren {l : List Char} : headBlocks ('(' :: l) := by
  intro c hc
  simp only [List.head?_cons, Option.some.injEq] at hc
  subst hc
  exact ⟨by decide, by decide⟩

/-! ### Round-trip computations for the title-qualified codec -/

theorem parseHashCore_title {tn : List Char} (hn : numShapeL tn = true) :
    parseHashCore ('t' :: tn) = .title ⟨tn⟩ := by
  have ht : takeNum tn = some (tn, []) := takeNum_of_shape hn
  simp [parseHashCore, matchDef, matchSecParen, matchSec, matchTitle,
    takeLit, ht]

theorem parseHashCore_sec {tn sn : List Char} (h1 : numShapeL tn = true)
    (h2 : numShapeL sn = true) :
    parseHashCore ('t' :: (tn ++ '/' :: 's' :: sn)) =
      .sect ⟨tn⟩ ⟨sn⟩ none := by
  have ht : takeNum (tn ++ '/' :: 's' :: sn) = some (tn, '/' :: 's' :: sn) :=
    takeNum_append h1 headBlocks_slash
  have hs : takeNum sn = some (sn, []) := takeNum_of_shape h2
  simp [parseHashCore, matchDef, matchSecParen, matchSec, matchTitle,
    takeLit, ht, hs]

theorem parseHashCore_paren {tn sn tail : List Char}
    (h1 : numShapeL tn = true) (h2 : numShapeL sn = true)
    (h3 : tail.isEmpty = false) (h4 : tail.all isDotC = true) :
    parseHashCore ('t' :: (tn ++ '/' :: 's' :: (sn ++ '(' :: tail))) =
      .sect ⟨tn⟩ ⟨sn⟩ (some ⟨'(' :: tail⟩) := by
  have ht : takeNum (tn ++ '/' :: 's' :: (sn ++ '(' :: tail)) =
      some (tn, '/' :: 's' :: (sn ++ '(' :: tail)) :=
    takeNum_append h1 headBlocks_slash
  have hs : takeNum (sn ++ '(' :: tail) = some (sn, '(' :: tail) :=
    takeNum_append h2 headBlocks_paren
  simp [parseHashCore, matchDef, matchSecParen, matchSec, matchTitle,
    takeLit, ht, hs, h3, h4]

theorem parseHashCore_def {tn sn slug : List Char}
    (h1 : numShapeL tn = true) (h2 : numShapeL sn = true)
    (h3 : slug.isEmpty = false) (h4 : slug.all isDotC = true) :
    parseHashCore
        ('t' :: (tn ++ '/' :: 's' ::
          (sn ++ '/' :: 'd' :: 'e' :: 'f' :: '/' :: slug))) =
      .sect ⟨tn⟩ ⟨sn⟩ (some ⟨'d' :: 'e' :: 'f' :: '/' :: slug⟩) := by
  have ht : takeNum (tn ++ '/' :: 's' ::
      (sn ++ '/' :: 'd' :: 'e' :: 'f' :: '/' :: slug)) =
      some (tn, '/' :: 's' ::
        (sn ++ '/' :: 'd' :: 'e' :: 'f' :: '/' :: slug)) :=
    takeNum_append h1 headBlocks_slash
  have hs : takeNum (sn ++ '/' :: 'd' :: 'e' :: 'f' :: '/' :: slug) =
      some (sn, '/' :: 'd' :: 'e' :: 'f' :: '/' :: slug) :=
    takeNum_append h2 headBlocks_slash
  simp [parseHashCore, matchDef, takeLit, ht, hs, h3, h4]

theorem stripHash_ht {l : List Char} : stripHash ('#' :: 't' :: l) = 't' :: l :=
  rfl

theorem anchorOkL_cases {l : List Char} (h : anchorOkL l = true) :
    (∃ tail, l = '(' :: tail ∧ tail.isEmpty = false ∧
      tail.all isDotC = true) ∨
    (∃ slug, l = 'd' :: 'e' :: 'f' :: '/' :: slug ∧ slug.isEmpty = false ∧
      slug.all isDotC = true) := by
  unfold anchorOkL at h
  split at h
  · next tail =>
    rw [Bool.and_eq_true] at h
    exact Or.inl ⟨tail, rfl, by simpa using h.1, h.2⟩
  · next slug =>
    rw [Bool.and_eq_true] at h
    exact Or.inr ⟨slug, rfl, by simpa using h.1, h.2⟩
  · exact absurd h (by simp)

/-- Round trip of the title-qualified codec: decoding the encoded address
of any constructible target returns the target unchanged. -/
theorem parseHash_viewToHash (v : ViewState) (h : wfView v) :
    parseHash (viewToHash v) = v := by
  cases v with
  | home => rfl
  | title tn =>
    have hn : numShapeL tn.toList = true := h
    have hdata : ("#t" ++ tn).toList = '#' :: 't' :: tn.toList := by
      show ("#t" ++ tn).data = '#' :: 't' :: tn.data
      rw [String.data_append]
      rfl
    show parseHashCore (stripHash ("#t" ++ tn).toList) = .title tn
    rw [hdata, stripHash_ht]
    exact parseHashCore_title hn
  | sect tn sn anchor =>
    obtain ⟨h1, h2, ha⟩ := h
    rcases ha with rfl | ⟨p, rfl, hp⟩
    · have hdata : ("#t" ++ tn ++ "/s" ++ sn ++ "").toList =
          '#' :: 't' :: (tn.toList ++ '/' :: 's' :: sn.toList) := by
        show ("#t" ++ tn ++ "/s" ++ sn ++ "").data = _
        simp [String.data_append]
      show parseHashCore
          (stripHash ("#t" ++ tn ++ "/s" ++ sn ++ "").toList) = _
      rw [hdata, stripHash_ht]
      exact parseHashCore_sec h1 h2
    · rcases anchorOkL_cases hp with ⟨tail, hpl, he, hd⟩ | ⟨slug, hpl, he, hd⟩
      · have hsw : startsWithL ['d', 'e', 'f', '/'] p.data = false := by
          rw [show p.data = p.toList from rfl, hpl]; rfl
        have hdata : ("#t" ++ tn ++ "/s" ++ sn ++ p).toList =
            '#' :: 't' ::
              (tn.toList ++ '/' :: 's' :: (sn.toList ++ '(' :: tail)) := by
          show ("#t" ++ tn ++ "/s" ++ sn ++ p).data = _
          simp [String.data_append]
          rw [show p.data = p.toList from rfl, hpl]
        show parseHashCore (stripHash (viewToHash
          (ViewState.sect tn sn (some p))).toList) = _
        rw [show viewToHash (ViewState.sect tn sn (some p)) =
            "#t" ++ tn ++ "/s" ++ sn ++ p by simp [viewToHash, hsw]]
        rw [hdata, stripHash_ht, parseHashCore_paren h1 h2 he hd]
        have hps : (⟨'(' :: tail⟩ : String) = p := congrArg String.mk hpl.symm
        rw [hps]
        rfl
      · have hsw : startsWithL ['d', 'e', 'f', '/'] p.data = true := by
          rw [show p.data = p.toList from rfl, hpl]; rfl
        have hdata : ("#t" ++ tn ++ "/s" ++ sn ++ ("/" ++ p)).toList =
            '#' :: 't' :: (tn.toList ++ '/' :: 's' ::
              (sn.toList ++ '/' :: 'd' :: 'e' :: 'f' :: '/' :: slug)) := by
          show ("#t" ++ tn ++ "/s" ++ sn ++ ("/" ++ p)).data = _
          simp [String.data_append]
          rw [show p.data = p.toList from rfl, hpl]
        show parseHashCore (stripHash (viewToHash
          (ViewState.sect tn sn (some p))).toList) = _
        rw [show viewToHash (ViewState.sect tn sn (some p)) =
            "#t" ++ tn ++ "/s" ++ sn ++ ("/" ++ p) by simp [viewToHash, hsw]]
        rw [hdata, stripHash_ht, parseHashCore_def h1 h2 he hd]
        have hps : (⟨'d' :: 'e' :: 'f' :: '/' :: slug⟩ : String) = p :=
          congrArg String.mk hpl.symm
        rw [hps]
        rfl

/-! ### Round trip of the single-title codec (anchor-free targets) -/

theorem numShape_no_paren {sn : List Char} (hn : numShapeL sn = true) :
    sn.findIdx? (fun c => c = '(') = none := by
  rw [List.findIdx?_eq_none_iff]
  intro c hc
  simp only [numShapeL, Bool.and_eq_true, List.all_eq_true] at hn
  rw [← List.takeWhile_append_dropWhile (p := isDigitC) (l := sn)] at hc
  simp only [decide_eq_false_iff_not]
  rintro rfl
  rcases List.mem_append.mp hc with hm | hm
  · have := List.mem_takeWhile_imp hm
    simp [isDigitC] at this
  · have := hn.2 _ hm
    simp [isUpperC] at this

theorem parseHashCoreS_sec {sn : List Char} (hn : numShapeL sn = true) :
    parseHashCoreS
        ('s' :: 'e' :: 'c' :: 't' :: 'i' :: 'o' :: 'n' :: '/' :: sn) =
      .sect ⟨sn⟩ none := by
  have hs : takeNum sn = some (sn, []) := takeNum_of_shape hn
  simp [parseHashCoreS, matchDefS, indexOfParen, takeLit, hs,
    numShape_no_paren hn]

theorem parseHashS_viewToHashS (v : ViewStateS) (h : wfViewS v)
    (hf : anchorFreeS v) : parseHashS (viewToHashS v) = v := by
  cases v with
  | home => rfl
  | chapter cn =>
    have hdata : ("#chapter/" ++ cn).toList =
        '#' :: 'c' :: 'h' :: 'a' :: 'p' :: 't' :: 'e' :: 'r' :: '/' ::
          cn.toList := by
      show ("#chapter/" ++ cn).data = _
      rw [String.data_append]
      rfl
    show parseHashCoreS (stripHash ("#chapter/" ++ cn).toList) = _
    rw [hdata]
    rfl
  | sect sn anchor =>
    obtain rfl : anchor = none := hf
    have hn : numShapeL sn.toList = true := h.1
    have hdata : ("#section/" ++ sn).toList =
        '#' :: 's' :: 'e' :: 'c' :: 't' :: 'i' :: 'o' :: 'n' :: '/' ::
          sn.toList := by
      show ("#section/" ++ sn).data = _
      rw [String.data_append]
      rfl
    show parseHashCoreS (stripHash ("#section/" ++ sn).toList) = _
    rw [hdata]
    show parseHashCoreS
        ('s' :: 'e' :: 'c' :: 't' :: 'i' :: 'o' :: 'n' :: '/' ::
          sn.toList) = _
    rw [parseHashCoreS_sec hn]
    rfl

/-! ### Claims C1 and C2: the hierarchical address codec -/

/-- C1, counterexample: the single-title `viewToHash`
(`src/src/App.tsx` lines 2141–2147) drops the paragraph anchor, so the
round trip `parseHash(viewToHash(v)) == v` fails on the section target
`{sectionNum: "106", paragraphAnchor: "(a)(1)"}`: decoding its encoding
yields the same section without the anchor. -/
theorem roundtrip_counterexample :
    parseHashS (viewToHashS (ViewStateS.sect "106" (some "(a)(1)"))) ≠
      ViewStateS.sect "106" (some "(a)(1)") ∧
    parseHashS (viewToHashS (ViewStateS.sect "106" (some "(a)(1)"))) =
      ViewStateS.sect "106" none := by
  constructor
  · decide
  · decide

/-- C1, amended: the round trip holds for every constructible target of
the title-qualified codec (`src/uscode/src/App.tsx`), and for every
constructible target of the single-title codec (`src/src/App.tsx`) that
carries no paragraph anchor; the single-title encoder discards paragraph
anchors, so section targets with an anchor do not round-trip. -/
theorem addressCodec_roundtrip :
    (∀ v : ViewState, wfView v → parseHash (viewToHash v) = v) ∧
    (∀ v : ViewStateS, wfViewS v → anchorFreeS v →
      parseHashS (viewToHashS v) = v) :=
  ⟨parseHash_viewToHash, parseHashS_viewToHashS⟩

/-- Witness for C1 (amended): the round trip evaluated on each target
shape at concrete inputs. -/
theorem addressCodec_roundtrip_witness :
    parseHash (viewToHash (ViewState.sect "17" "106" (some "(a)(1)"))) =
      ViewState.sect "17" "106" (some "(a)(1)") ∧
    parseHash (viewToHash
        (ViewState.sect "17" "101" (some "def/anonymous-work"))) =
      ViewState.sect "17" "101" (some "def/anonymous-work") ∧
    parseHash (viewToHash (ViewState.sect "17" "512" none)) =
      ViewState.sect "17" "512" none ∧
    parseHash (viewToHash (ViewState.title "17")) = ViewState.title "17" ∧
    parseHash (viewToHash ViewState.home) = ViewState.home ∧
    parseHashS (viewToHashS (ViewStateS.sect "106" none)) =
      ViewStateS.sect "106" none :=
  ⟨addressCodec_roundtrip.1 _
      ⟨by decide, by decide, Or.inr ⟨"(a)(1)", rfl, by decide⟩⟩,
    addressCodec_roundtrip.1 _
      ⟨by decide, by decide, Or.inr ⟨"def/anonymous-work", rfl, by decide⟩⟩,
    addressCodec_roundtrip.1 _ ⟨by decide, by decide, Or.inl rfl⟩,
    addressCodec_roundtrip.1 _ (show numShapeL "17".toList = true by decide),
    addressCodec_roundtrip.1 _ trivial,
    addressCodec_roundtrip.2 _ ⟨by decide, Or.inl rfl⟩ rfl⟩

/-- C2: decoding `"t17/s106(a)(1)"` yields the section target with title
`17`, section `106` and paragraph anchor `(a)(1)`; decoding
`"t17/s101/def/anonymous-work"` yields title `17`, section `101`, anchor
`def/anonymous-work`; the decoder's pattern cascade (definition anchor,
then paragraph anchor, then bare section, then title-only) resolves each
shape, and unmatched strings fall back to the home target. -/
theorem parseHash_scenarios :
    parseHash "t17/s106(a)(1)" =
      ViewState.sect "17" "106" (some "(a)(1)") ∧
    parseHash "t17/s101/def/anonymous-work" =
      ViewState.sect "17" "101" (some "def/anonymous-work") ∧
    parseHash "t17/s106" = ViewState.sect "17" "106" none ∧
    parseHash "t17" = ViewState.title "17" ∧
    parseHash "t17/s" = ViewState.home ∧
    parseHash "chapter-7" = ViewState.home ∧
    parseHash "" = ViewState.home := by
  refine ⟨?_, ?_, ?_, ?_, ?_, ?_, ?_⟩ <;> decide

theorem buildPara_cons_push {st : List (Nat × String)} {i : Nat}
    {secNum : String} {hd : ContentBlock} {rest : List ContentBlock}
    {numText restHtml : List Char} (hs : isStructural hd = true)
    (hsp : splitBlockHtmlL hd.html.toList = some (numText, restHtml)) :
    buildPara st i secNum (hd :: rest) =
      (i, (⟨pathOf ((hd.indent, (⟨trimL numText⟩ : String)) ::
          st.dropWhile (fun e => hd.indent ≤ e.1)),
        "p-" ++ secNum ++ pathOf ((hd.indent, (⟨trimL numText⟩ : String)) ::
          st.dropWhile (fun e => hd.indent ≤ e.1))⟩ : ParaMeta)) ::
      buildPara ((hd.indent, (⟨trimL numText⟩ : String)) ::
          st.dropWhile (fun e => hd.indent ≤ e.1)) (i + 1) secNum rest := by
  rw [buildPara, if_pos hs, hsp]

theorem buildPara_cons_nosplit {st : List (Nat × String)} {i : Nat}
    {secNum : String} {hd : ContentBlock} {rest : List ContentBlock}
    (hs : isStructural hd = true)
    (hsp : splitBlockHtmlL hd.html.toList = none) :
    buildPara st i secNum (hd :: rest) = buildPara st (i + 1) secNum rest := by
  rw [buildPara, if_pos hs, hsp]

theorem buildPara_cons_nonstruct {st : List (Nat × String)} {i : Nat}
    {secNum : String} {hd : ContentBlock} {rest : List ContentBlock}
    (hs : isStructural hd = false) :
    buildPara st i secNum (hd :: rest) = buildPara st (i + 1) secNum rest := by
  rw [buildPara, if_neg (by simp [hs])]

theorem dropWhile_stack_range :
    ∀ {k : Nat} {st : List (Nat × String)} {i : Nat},
      st.map (fun e => e.1) = (List.range k).reverse → i ≤ k →
      (st.dropWhile (fun e => i ≤ e.1)).map (fun e => e.1) =
        (List.range i).reverse := by
  intro k
  induction k with
  | zero =>
    intro st i hst hik
    interval_cases i
    have hnil : st = [] := by
      cases st with
      | nil => rfl
      | cons e st' => simp at hst
    subst hnil
    rfl
  | succ k ih =>
    intro st i hst hik
    rw [List.range_succ, List.reverse_append, List.reverse_singleton,
      List.singleton_append] at hst
    cases st with
    | nil => simp at hst
    | cons e st' =>
      rw [List.map_cons, List.cons.injEq] at hst
      obtain ⟨he, hst'⟩ := hst
      rw [List.dropWhile_cons]
      by_cases hi : i ≤ e.1
      · rw [if_pos (by simpa using hi)]
        have hik' : i ≤ k := by omega
        exact ih hst' hik'
      · rw [if_neg (by simpa using hi)]
        have : i = k + 1 := by omega
        subst this
        rw [List.map_cons, hst', he, List.range_succ, List.reverse_append,
          List.reverse_singleton, List.singleton_append]

theorem buildPara_idx_ge (secNum : String) :
    ∀ (blocks : List ContentBlock) (st : List (Nat × String)) (i : Nat),
      ∀ e ∈ buildPara st i secNum blocks, i ≤ e.1 := by
  intro blocks
  induction blocks with
  | nil => intro st i e he; simp [buildPara] at he
  | cons hd rest ih =>
    intro st i e he
    rw [buildPara] at he
    by_cases hs : isStructural hd = true
    · rw [if_pos hs] at he
      cases hsp : splitBlockHtmlL hd.html.toList with
      | none =>
        rw [hsp] at he
        have := ih st (i + 1) e he
        omega
      | some pr =>
        rw [hsp] at he
        rcases List.mem_cons.mp he with rfl | hmem
        · exact Nat.le_refl i
        · have := ih _ (i + 1) e hmem
          omega
    · rw [if_neg hs] at he
      have := ih st (i + 1) e he
      omega

theorem mapGetN_none_of_gt {l : List (Nat × ParaMeta)} {k : Nat}
    (h : ∀ e ∈ l, k < e.1) : mapGetN l k = none := by
  unfold mapGetN
  rw [List.find?_eq_none.mpr]
  · rfl
  · intro e he
    simp only [decide_eq_true_eq]
    have := h e he
    omega

theorem buildPara_path_shape (full : List ContentBlock) (secNum : String) :
    ∀ (blocks : List ContentBlock) (st : List (Nat × String)) (k i : Nat),
      st.map (fun e => e.1) = (List.range k).reverse →
      (∀ e ∈ st, tokenFrom full e.2) →
      (∀ b ∈ blocks, b ∈ full) →
      contigB k blocks = true →
      ∀ j b m, blocks.get? j = some b →
        mapGetN (buildPara st i secNum blocks) (i + j) = some m →
        ∃ toks : List String, toks.length = b.indent + 1 ∧
          m.path = String.join toks ∧ ∀ t ∈ toks, tokenFrom full t := by
  intro blocks
  induction blocks with
  | nil => intro st k i _ _ _ _ j b m hj; simp at hj
  | cons hd rest ih =>
    intro st k i hst htok hsub hcontig j b m hj hm
    by_cases hs : isStructural hd = true
    · rw [contigB, if_pos hs] at hcontig
      cases hsp : splitBlockHtmlL hd.html.toList with
      | none =>
        rw [hsp] at hcontig
        rw [buildPara_cons_nosplit hs hsp] at hm
        cases j with
        | zero =>
          exfalso
          have hge := buildPara_idx_ge secNum rest st (i + 1)
          rw [mapGetN_none_of_gt (fun e he => by have := hge e he; omega)]
            at hm
          exact Option.noConfusion hm
        | succ j =>
          rw [List.get?_cons_succ] at hj
          have hidx : i + (j + 1) = (i + 1) + j := by omega
          rw [hidx] at hm
          exact ih st k (i + 1) hst htok
            (fun b hb => hsub b (List.mem_cons_of_mem hd hb)) hcontig
            j b m hj hm
      | some pr =>
        rw [hsp] at hcontig
        rw [Bool.and_eq_true, decide_eq_true_eq] at hcontig
        obtain ⟨hind, hrest⟩ := hcontig
        have hhd : hd ∈ full := hsub hd (List.mem_cons_self hd rest)
        obtain ⟨numText, restHtml⟩ := pr
        rw [buildPara_cons_push hs hsp] at hm
        have hst' : ((hd.indent, (⟨trimL numText⟩ : String)) ::
            st.dropWhile (fun e => hd.indent ≤ e.1)).map (fun e => e.1) =
            (List.range (hd.indent + 1)).reverse := by
          rw [List.map_cons, dropWhile_stack_range hst hind,
            List.range_succ, List.reverse_append, List.reverse_singleton,
            List.singleton_append]
        have htok' : ∀ e ∈ (hd.indent, (⟨trimL numText⟩ : String)) ::
            st.dropWhile (fun e => hd.indent ≤ e.1), tokenFrom full e.2 := by
          intro e he
          rcases List.mem_cons.mp he with rfl | hmem
          · exact ⟨hd, hhd, hs, by rw [designatorOf, hsp]; rfl⟩
          · exact htok e ((List.dropWhile_sublist _).mem hmem)
        cases j with
        | zero =>
          rw [List.get?_cons_zero, Option.some.injEq] at hj
          subst hj
          rw [mapGetN, List.find?_cons_of_pos _
            (by simp only [decide_eq_true_eq]; omega)] at hm
          simp only [Option.map_some', Option.some.injEq] at hm
          subst hm
          refine ⟨((hd.indent, (⟨trimL numText⟩ : String)) ::
            st.dropWhile (fun e => hd.indent ≤ e.1)).reverse.map
              (fun e => e.2), ?_, ?_, ?_⟩
          · rw [List.length_map, List.length_reverse]
            have hlen := congrArg List.length hst'
            rw [List.length_map, List.length_reverse,
              List.length_range] at hlen
            exact hlen
          · rfl
          · intro t ht
            rw [List.mem_map] at ht
            obtain ⟨e, he, rfl⟩ := ht
            exact htok' e (List.mem_reverse.mp he)
        | succ j =>
          rw [List.get?_cons_succ] at hj
          rw [mapGetN, List.find?_cons_of_neg _
            (by simp only [decide_eq_true_eq]; omega)] at hm
          have hidx : i + (j + 1) = (i + 1) + j := by omega
          rw [hidx] at hm
          exact ih _ (hd.indent + 1) (i + 1) hst' htok'
            (fun b hb => hsub b (List.mem_cons_of_mem hd hb)) hrest
            j b m hj hm
    · rw [contigB, if_neg hs] at hcontig
      rw [buildPara_cons_nonstruct (Bool.not_eq_true _ ▸ hs)] at hm
      cases j with
      | zero =>
        exfalso
        have hge := buildPara_idx_ge secNum rest st (i + 1)
        rw [mapGetN_none_of_gt (fun e he => by have := hge e he; omega)]
          at hm
        exact Option.noConfusion hm
      | succ j =>
        rw [List.get?_cons_succ] at hj
        have hidx : i + (j + 1) = (i + 1) + j := by omega
        rw [hidx] at hm
        exact ih st k (i + 1) hst htok
          (fun b hb => hsub b (List.mem_cons_of_mem hd hb)) hcontig
          j b m hj hm

/-- C3: for every depth-contiguous block sequence, the structural path
builder assigns a block at indent depth `d` a path that is the
concatenation of exactly `d+1` designator tokens of the sequence's
structural blocks; in particular the subsection `(b)` at indent 0 followed
by paragraph `(1)` at indent 1 receives paths `"(b)"` and `"(b)(1)"`. -/
theorem paraPath_depth :
    (∀ (content : List ContentBlock) (secNum : String),
      contigB 0 content = true →
      ∀ j b m, content.get? j = some b →
        mapGetN (buildParaMetaMap content secNum) j = some m →
        ∃ toks : List String, toks.length = b.indent + 1 ∧
          m.path = String.join toks ∧ ∀ t ∈ toks, tokenFrom content t) ∧
    mapGetN (buildParaMetaMap
      [⟨"subsection", 0, "<span class=\"num\">(b)</span> text"⟩,
       ⟨"paragraph", 1, "<span class=\"num\">(1)</span> more"⟩] "106") 0 =
      some ⟨"(b)", "p-106(b)"⟩ ∧
    mapGetN (buildParaMetaMap
      [⟨"subsection", 0, "<span class=\"num\">(b)</span> text"⟩,
       ⟨"paragraph", 1, "<span class=\"num\">(1)</span> more"⟩] "106") 1 =
      some ⟨"(b)(1)", "p-106(b)(1)"⟩ := by
  refine ⟨?_, by decide, by decide⟩
  intro content secNum hc j b m hj hm
  have h := buildPara_path_shape content secNum content [] 0 0 rfl
    (by intro e he; simp at he) (fun b hb => hb) hc j b m hj
  rw [Nat.zero_add] at h
  exact h hm

/-- Witness for C3: the general statement applied to the spec's two-block
scenario. -/
theorem paraPath_depth_witness :
    contigB 0 [⟨"subsection", 0, "<span class=\"num\">(b)</span> text"⟩,
      ⟨"paragraph", 1, "<span class=\"num\">(1)</span> more"⟩] = true ∧
    ∃ toks : List String, toks.length = 2 ∧
      (("(b)(1)" : String) = String.join toks ∧
        ∀ t ∈ toks, tokenFrom
          [⟨"subsection", 0, "<span class=\"num\">(b)</span> text"⟩,
           ⟨"paragraph", 1, "<span class=\"num\">(1)</span> more"⟩] t) := by
  refine ⟨by decide, ?_⟩
  have h := paraPath_depth.1
    [⟨"subsection", 0, "<span class=\"num\">(b)</span> text"⟩,
     ⟨"paragraph", 1, "<span class=\"num\">(1)</span> more"⟩] "106"
    (by decide) 1 ⟨"paragraph", 1, "<span class=\"num\">(1)</span> more"⟩
    ⟨"(b)(1)", "p-106(b)(1)"⟩ (by decide) (by decide)
  obtain ⟨toks, h1, h2, h3⟩ := h
  exact ⟨toks, h1, h2, h3⟩

/-! ### Claim C4: anchorId uniqueness -/

theorem buildPara_id_form (secNum : String) :
    ∀ (blocks : List ContentBlock) (st : List (Nat × String)) (i : Nat),
      ∀ e ∈ buildPara st i secNum blocks,
        e.2.id = "p-" ++ secNum ++ e.2.path := by
  intro blocks
  induction blocks with
  | nil => intro st i e he; simp [buildPara] at he
  | cons hd rest ih =>
    intro st i e he
    by_cases hs : isStructural hd = true
    · cases hsp : splitBlockHtmlL hd.html.toList with
      | none =>
        rw [buildPara_cons_nosplit hs hsp] at he
        exact ih st (i + 1) e he
      | some pr =>
        obtain ⟨numText, restHtml⟩ := pr
        rw [buildPara_cons_push hs hsp] at he
        rcases List.mem_cons.mp he with rfl | hmem
        · rfl
        · exact ih _ (i + 1) e hmem
    · rw [buildPara_cons_nonstruct (Bool.not_eq_true _ ▸ hs)] at he
      exact ih st (i + 1) e he

theorem mapGetN_mem {l : List (Nat × ParaMeta)} {k : Nat} {m : ParaMeta}
    (h : mapGetN l k = some m) : (k, m) ∈ l := by
  unfold mapGetN at h
  cases hf : l.find? (fun e => e.1 = k) with
  | none => rw [hf] at h; simp at h
  | some e =>
    rw [hf] at h
    simp only [Option.map_some', Option.some.injEq] at h
    have hmem := List.mem_of_find?_eq_some hf
    have hp := List.find?_some hf
    simp only [decide_eq_true_eq] at hp
    obtain ⟨e1, e2⟩ := e
    simp only at hp h
    subst hp
    subst h
    exact hmem

/-- C4, counterexample: two sibling subsections that carry the same
designator `(a)` produce two map entries with the same `anchorId`
`p-5(a)`; the anchorId is not unique over arbitrary block sequences. -/
theorem anchorId_unique_counterexample :
    (0 : Nat) ≠ 1 ∧
    mapGetN (buildParaMetaMap
      [⟨"subsection", 0, "<span class=\"num\">(a)</span> x"⟩,
       ⟨"subsection", 0, "<span class=\"num\">(a)</span> y"⟩] "5") 0 =
      some ⟨"(a)", "p-5(a)"⟩ ∧
    mapGetN (buildParaMetaMap
      [⟨"subsection", 0, "<span class=\"num\">(a)</span> x"⟩,
       ⟨"subsection", 0, "<span class=\"num\">(a)</span> y"⟩] "5") 1 =
      some ⟨"(a)", "p-5(a)"⟩ :=
  ⟨by decide, by decide, by decide⟩

/-- C4, amended: within one section the anchorId is injective in the path
— whenever the computed paths of two distinct map entries differ, their
anchorIds differ; uniqueness of the anchorIds therefore holds exactly for
sequences whose structural paths are pairwise distinct. -/
theorem anchorId_unique_of_paths (content : List ContentBlock)
    (secNum : String)
    (hp : ∀ i j mi mj, i ≠ j →
      mapGetN (buildParaMetaMap content secNum) i = some mi →
      mapGetN (buildParaMetaMap content secNum) j = some mj →
      mi.path ≠ mj.path) :
    ∀ i j mi mj, i ≠ j →
      mapGetN (buildParaMetaMap content secNum) i = some mi →
      mapGetN (buildParaMetaMap content secNum) j = some mj →
      mi.id ≠ mj.id := by
  intro i j mi mj hij hmi hmj heq
  have h1 : mi.id = "p-" ++ secNum ++ mi.path :=
    buildPara_id_form secNum content [] 0 _ (mapGetN_mem hmi)
  have h2 : mj.id = "p-" ++ secNum ++ mj.path :=
    buildPara_id_form secNum content [] 0 _ (mapGetN_mem hmj)
  apply hp i j mi mj hij hmi hmj
  rw [h1, h2] at heq
  have hdata := congrArg String.data heq
  simp only [String.data_append, List.cons_append, List.nil_append,
    List.cons.injEq, true_and] at hdata
  exact congrArg String.mk (List.append_cancel_left hdata)

theorem mapGetN_pair {a b : Nat} {ma mb : ParaMeta} {i : Nat} {m : ParaMeta}
    (h : mapGetN [(a, ma), (b, mb)] i = some m) :
    (a = i ∧ m = ma) ∨ (b = i ∧ m = mb) := by
  unfold mapGetN at h
  by_cases ha : a = i
  · rw [List.find?_cons_of_pos _ (by simpa using ha)] at h
    simp only [Option.map_some', Option.some.injEq] at h
    exact Or.inl ⟨ha, h.symm⟩
  · rw [List.find?_cons_of_neg _ (by simpa using ha)] at h
    by_cases hb : b = i
    · rw [List.find?_cons_of_pos _ (by simpa using hb)] at h
      simp only [Option.map_some', Option.some.injEq] at h
      exact Or.inr ⟨hb, h.symm⟩
    · rw [List.find?_cons_of_neg _ (by simpa using hb)] at h
      simp at h

/-- Witness for C4 (amended): the two-block `(b)`, `(b)(1)` section has
pairwise distinct paths, and the theorem yields distinct anchorIds. -/
theorem anchorId_unique_witness :
    ((⟨"(b)", "p-106(b)"⟩ : ParaMeta)).id ≠
      ((⟨"(b)(1)", "p-106(b)(1)"⟩ : ParaMeta)).id := by
  apply anchorId_unique_of_paths
    [⟨"subsection", 0, "<span class=\"num\">(b)</span> text"⟩,
     ⟨"paragraph", 1, "<span class=\"num\">(1)</span> more"⟩] "106"
    ?_ 0 1 ⟨"(b)", "p-106(b)"⟩ ⟨"(b)(1)", "p-106(b)(1)"⟩
    (by decide) (by decide) (by decide)
  intro i j mi mj hij hmi hmj
  have hi := mapGetN_pair (show mapGetN [(0, ⟨"(b)", "p-106(b)"⟩),
    (1, ⟨"(b)(1)", "p-106(b)(1)"⟩)] i = some mi from hmi)
  have hj := mapGetN_pair (show mapGetN [(0, ⟨"(b)", "p-106(b)"⟩),
    (1, ⟨"(b)(1)", "p-106(b)(1)"⟩)] j = some mj from hmj)
  rcases hi with ⟨rfl, rfl⟩ | ⟨rfl, rfl⟩ <;>
    rcases hj with ⟨rfl, rfl⟩ | ⟨rfl, rfl⟩ <;>
    first
      | exact absurd rfl hij
      | decide

theorem buildPara_shift (secNum : String) :
    ∀ (blocks : List ContentBlock) (st : List (Nat × String)) (i : Nat),
      buildPara st (i + 1) secNum blocks =
        (buildPara st i secNum blocks).map (fun e => (e.1 + 1, e.2)) := by
  intro blocks
  induction blocks with
  | nil => intro st i; rfl
  | cons hd rest ih =>
    intro st i
    by_cases hs : isStructural hd = true
    · cases hsp : splitBlockHtmlL hd.html.toList with
      | none =>
        rw [buildPara_cons_nosplit hs hsp, buildPara_cons_nosplit hs hsp, ih]
      | some pr =>
        obtain ⟨nt, rh⟩ := pr
        rw [buildPara_cons_push hs hsp, buildPara_cons_push hs hsp,
          List.map_cons, ih]
    · rw [buildPara_cons_nonstruct (Bool.not_eq_true _ ▸ hs),
        buildPara_cons_nonstruct (Bool.not_eq_true _ ▸ hs), ih]

theorem shiftFrom_of_ge {t : Nat} {l : List (Nat × ParaMeta)}
    (h : ∀ e ∈ l, t ≤ e.1) :
    shiftFrom t l = l.map (fun e => (e.1 + 1, e.2)) := by
  unfold shiftFrom
  induction l with
  | nil => rfl
  | cons e l ih =>
    rw [List.map_cons, List.map_cons, if_pos (h e (List.mem_cons_self e l)),
      ih (fun x hx => h x (List.mem_cons_of_mem e hx))]

theorem buildPara_insert_skip (secNum : String) (b : ContentBlock)
    (hs : isStructural b = true)
    (hsp : splitBlockHtmlL b.html.toList = none) :
    ∀ (pre : List ContentBlock) (st : List (Nat × String)) (i : Nat)
      (post : List ContentBlock),
      buildPara st i secNum (pre ++ b :: post) =
        shiftFrom (i + pre.length) (buildPara st i secNum (pre ++ post)) := by
  intro pre
  induction pre with
  | nil =>
    intro st i post
    simp only [List.nil_append, List.length_nil, Nat.add_zero]
    rw [buildPara_cons_nosplit hs hsp, buildPara_shift secNum post st i,
      shiftFrom_of_ge (fun e he => buildPara_idx_ge secNum post st i e he)]
  | cons p pre ih =>
    intro st i post
    simp only [List.cons_append, List.length_cons]
    by_cases hps : isStructural p = true
    · cases hpsp : splitBlockHtmlL p.html.toList with
      | none =>
        rw [buildPara_cons_nosplit hps hpsp, buildPara_cons_nosplit hps hpsp,
          ih st (i + 1) post, show (i + 1) + pre.length =
            i + (pre.length + 1) by omega]
      | some pr =>
        obtain ⟨nt, rh⟩ := pr
        rw [buildPara_cons_push hps hpsp, buildPara_cons_push hps hpsp,
          ih _ (i + 1) post, show (i + 1) + pre.length =
            i + (pre.length + 1) by omega]
        simp only [shiftFrom, List.map_cons]
        rw [if_neg (by omega)]
    · rw [buildPara_cons_nonstruct (Bool.not_eq_true _ ▸ hps),
        buildPara_cons_nonstruct (Bool.not_eq_true _ ▸ hps),
        ih st (i + 1) post, show (i + 1) + pre.length =
          i + (pre.length + 1) by omega]

theorem mapGetN_shiftFrom_self {t : Nat} {l : List (Nat × ParaMeta)} :
    mapGetN (shiftFrom t l) t = none := by
  induction l with
  | nil => rfl
  | cons a l ih =>
    unfold shiftFrom at ih ⊢
    rw [List.map_cons]
    by_cases hta : t ≤ a.1
    · rw [if_pos hta]
      unfold mapGetN at ih ⊢
      rw [List.find?_cons_of_neg _
        (by simp only [decide_eq_true_eq]; omega)]
      exact ih
    · rw [if_neg hta]
      unfold mapGetN at ih ⊢
      rw [List.find?_cons_of_neg _
        (by simp only [decide_eq_true_eq]; omega)]
      exact ih

/-- C5: a structural-typed block whose markup does not begin with a
designator span receives no entry in the structural path map and
contributes no designator token to later paths: the builder produces the
same map as the sequence without that block, with later indices shifted by
one (and, being a total function, it never throws). -/
theorem malformed_block_skipped (pre post : List ContentBlock)
    (b : ContentBlock) (secNum : String) (hs : isStructural b = true)
    (hsp : splitBlockHtmlL b.html.toList = none) :
    mapGetN (buildParaMetaMap (pre ++ b :: post) secNum) pre.length = none ∧
    buildParaMetaMap (pre ++ b :: post) secNum =
      shiftFrom pre.length (buildParaMetaMap (pre ++ post) secNum) := by
  have hm : buildParaMetaMap (pre ++ b :: post) secNum =
      shiftFrom pre.length (buildParaMetaMap (pre ++ post) secNum) := by
    have h := buildPara_insert_skip secNum b hs hsp pre [] 0 post
    simpa using h
  exact ⟨by rw [hm]; exact mapGetN_shiftFrom_self, hm⟩

/-- Witness for C5: a structural paragraph block with no designator span,
inserted between two well-formed blocks, is skipped and the rest of the
map is index-shifted. -/
theorem malformed_block_skipped_witness :
    mapGetN (buildParaMetaMap
      [⟨"subsection", 0, "<span class=\"num\">(a)</span> x"⟩,
       ⟨"paragraph", 1, "plain text"⟩,
       ⟨"paragraph", 1, "<span class=\"num\">(1)</span> y"⟩] "99") 1 =
      none ∧
    buildParaMetaMap
      [⟨"subsection", 0, "<span class=\"num\">(a)</span> x"⟩,
       ⟨"paragraph", 1, "plain text"⟩,
       ⟨"paragraph", 1, "<span class=\"num\">(1)</span> y"⟩] "99" =
      shiftFrom 1 (buildParaMetaMap
        [⟨"subsection", 0, "<span class=\"num\">(a)</span> x"⟩,
         ⟨"paragraph", 1, "<span class=\"num\">(1)</span> y"⟩] "99") :=
  malformed_block_skipped
    [⟨"subsection", 0, "<span class=\"num\">(a)</span> x"⟩]
    [⟨"paragraph", 1, "<span class=\"num\">(1)</span> y"⟩]
    ⟨"paragraph", 1, "plain text"⟩ "99" (by decide) (by decide)

theorem dropWhile_length_le (p : Char → Bool) :
    ∀ l : List Char, (l.dropWhile p).length ≤ l.length := by
  intro l
  induction l with
  | nil => exact Nat.le_refl _
  | cons a l ih =>
    rw [List.dropWhile_cons]
    by_cases h : p a
    · rw [if_pos h]
      exact Nat.le_trans ih (Nat.le_succ _)
    · rw [if_neg h]

/-! ### Claim C10: the annotator with no usable records is the identity -/

theorem filter_nil_of_empty {defs : List TermDef}
    (h : ∀ d ∈ defs, d.term = "" ∨ d.slug = "") :
    defs.filter (fun d => !d.term.isEmpty && !d.slug.isEmpty) = [] := by
  induction defs with
  | nil => rfl
  | cons d ds ih =>
    rw [List.filter_cons]
    have hd := h d (List.mem_cons_self d ds)
    have hfalse : (!d.term.isEmpty && !d.slug.isEmpty) = false := by
      rcases hd with h1 | h1 <;> simp [h1, String.isEmpty]
    rw [hfalse]
    simp only [Bool.false_eq_true, if_false]
    exact ih fun d hd => h d (List.mem_cons_of_mem _ hd)

/-- C10: built over an empty record list, or over records that all lack a
term or a slug, the annotator is the identity on every fragment. -/
theorem annotator_empty_identity :
    (∀ html : String, buildTermAnnotator [] html = html) ∧
    (∀ defs : List TermDef, (∀ d ∈ defs, d.term = "" ∨ d.slug = "") →
      ∀ html : String, buildTermAnnotator defs html = html) := by
  constructor
  · intro html; rfl
  · intro defs h html
    unfold buildTermAnnotator
    rw [filter_nil_of_empty h]
    rfl

/-- Witness for C10: records with an empty term or an empty slug leave the
fragment untouched. -/
theorem annotator_empty_identity_witness :
    buildTermAnnotator [(⟨"", "x", "101"⟩ : TermDef),
      (⟨"y", "", "115e"⟩ : TermDef)] "the work" = "the work" :=
  annotator_empty_identity.2 _ (by decide) "the work"

theorem tryAlts_eq_none {s : List Char} {terms : List TermDef}
    (h : ∀ t ∈ terms, matchesAt t s = false) : tryAlts s terms = none := by
  induction terms with
  | nil => rfl
  | cons t ts ih =>
    have ht := h t (List.mem_cons_self t ts)
    unfold matchesAt at ht
    unfold tryAlts
    cases hmt : matchTerm t.term.toList s with
    | none => exact ih fun t htm => h t (List.mem_cons_of_mem _ htm)
    | some pr =>
      obtain ⟨m, rest⟩ := pr
      rw [hmt] at ht
      have ht2 : (!m.isEmpty && boundary m.getLast? rest.head?) = false := ht
      show (if !m.isEmpty && boundary m.getLast? rest.head? then
        some (m, rest) else tryAlts s ts) = none
      rw [ht2]
      simp only [Bool.false_eq_true, if_false]
      exact ih fun t htm => h t (List.mem_cons_of_mem _ htm)

theorem annotateTextGo_cons_none {terms : List TermDef}
    {entries : List (List Nat × TermInfo)} {prev : Option Char}
    {c : Char} {rest : List Char} {fuel : Nat}
    (h : tryMatch terms prev (c :: rest) = none) :
    annotateTextGo terms entries (fuel + 1) prev (c :: rest) =
      c :: annotateTextGo terms entries fuel (some c) rest := by
  rw [annotateTextGo, h]

theorem annotateTextGo_cons_some {terms : List TermDef}
    {entries : List (List Nat × TermInfo)} {prev : Option Char}
    {c : Char} {rest m after : List Char} {fuel : Nat}
    (h : tryMatch terms prev (c :: rest) = some (m, after))
    (hlen : after.length < rest.length + 1) :
    annotateTextGo terms entries (fuel + 1) prev (c :: rest) =
      replaceMatch entries m ++
        annotateTextGo terms entries fuel m.getLast? after := by
  rw [annotateTextGo, h]
  show (if after.length < (c :: rest).length then
      replaceMatch entries m ++
        annotateTextGo terms entries fuel m.getLast? after
    else c :: annotateTextGo terms entries fuel (some c) rest) =
    replaceMatch entries m ++
      annotateTextGo terms entries fuel m.getLast? after
  rw [if_pos (by simpa using hlen)]

theorem annotateTextGo_nomatch_id {terms defs : List TermDef}
    {entries : List (List Nat × TermInfo)}
    (hsub : ∀ t ∈ terms, t ∈ defs) :
    ∀ (fuel : Nat) (s : List Char) (prev : Option Char),
      noMatchFrom defs prev s = true →
      annotateTextGo terms entries fuel prev s = s := by
  intro fuel
  induction fuel with
  | zero => intro s prev _; rw [annotateTextGo]
  | succ fuel ih =>
    intro s prev h
    cases s with
    | nil => rw [annotateTextGo]
    | cons c rest =>
      rw [noMatchFrom, Bool.and_eq_true] at h
      obtain ⟨h1, h2⟩ := h
      have hnone : tryMatch terms prev (c :: rest) = none := by
        unfold tryMatch
        cases hb : boundary prev (some c) with
        | false =>
          rw [show (c :: rest).head? = some c from rfl, hb]
          rfl
        | true =>
          rw [show (c :: rest).head? = some c from rfl, hb, if_pos rfl]
          rw [hb] at h1
          simp only [Bool.not_true, Bool.false_or, List.all_eq_true,
            Bool.not_eq_true'] at h1
          exact tryAlts_eq_none fun t ht => h1 t (hsub t ht)
      rw [annotateTextGo_cons_none hnone]
      rw [ih rest (some c) h2]

theorem dropWhile_head_not {p : Char → Bool} :
    ∀ {l : List Char} {c : Char} {t : List Char},
      l.dropWhile p = c :: t → p c = false := by
  intro l
  induction l with
  | nil => intro c t h; simp at h
  | cons a l ih =>
    intro c t h
    rw [List.dropWhile_cons] at h
    by_cases ha : p a = true
    · rw [if_pos ha] at h
      exact ih h
    · rw [if_neg ha] at h
      rw [List.cons.injEq] at h
      obtain ⟨rfl, -⟩ := h
      exact (Bool.not_eq_true _) ▸ ha

theorem splitTagsGo_flatten :
    ∀ (fuel : Nat) (acc s : List Char),
      ((splitTagsGo acc fuel s).map (fun seg => seg.2)).flatten =
        acc.reverse ++ s := by
  intro fuel
  induction fuel with
  | zero =>
    intro acc s
    rw [splitTagsGo]
    simp
  | succ fuel ih =>
    intro acc s
    cases s with
    | nil =>
      rw [splitTagsGo]
      simp
    | cons c rest =>
      rw [splitTagsGo]
      by_cases hc : c = '<'
      · rw [if_pos hc]
        subst hc
        by_cases h1 : (rest.takeWhile (fun d => d ≠ '>')).isEmpty = true
        · rw [if_pos h1, ih]
          simp
        · rw [if_neg h1]
          by_cases h2 : (rest.dropWhile (fun d => d ≠ '>')).isEmpty = true
          · rw [if_pos h2, ih]
            simp
          · rw [if_neg h2]
            simp only [List.map_cons, List.flatten_cons]
            rw [ih]
            cases hre : rest.dropWhile (fun d => d ≠ '>') with
            | nil => rw [hre] at h2; simp at h2
            | cons c0 t0 =>
              have hc0 : (fun d => decide (d ≠ '>')) c0 = false :=
                dropWhile_head_not hre
              simp only [decide_eq_false_iff_not, ne_eq, not_not] at hc0
              subst hc0
              have hrest : rest =
                  rest.takeWhile (fun d => d ≠ '>') ++ '>' :: t0 := by
                conv_lhs => rw [← List.takeWhile_append_dropWhile
                  (p := fun d => d ≠ '>') (l := rest)]
                rw [hre]
              conv_rhs => rw [hrest]
              simp
      · rw [if_neg hc, ih]
        simp

theorem splitTagsGo_no_lt :
    ∀ (fuel : Nat) (s acc : List Char), (∀ c ∈ s, ¬c = '<') →
      splitTagsGo acc fuel s = [(false, acc.reverse ++ s)] := by
  intro fuel
  induction fuel with
  | zero => intro s acc _; rw [splitTagsGo]
  | succ fuel ih =>
    intro s acc h
    cases s with
    | nil =>
      rw [splitTagsGo, List.append_nil]
    | cons c rest =>
      rw [splitTagsGo,
        if_neg (h c (List.mem_cons_self c rest)),
        ih rest (c :: acc) (fun d hd => h d (List.mem_cons_of_mem c hd))]
      simp

theorem splitTags_no_lt {s : List Char} (h : ∀ c ∈ s, ¬c = '<') :
    splitTags s = [(false, s)] := by
  unfold splitTags
  rw [splitTagsGo_no_lt s.length s [] h]
  rfl

theorem mem_insertByLen {x y : TermDef} :
    ∀ {l : List TermDef}, y ∈ insertByLen x l ↔ y = x ∨ y ∈ l := by
  intro l
  induction l with
  | nil => simp [insertByLen]
  | cons z zs ih =>
    rw [insertByLen]
    by_cases h : x.term.length < z.term.length
    · rw [if_pos h]
      rw [List.mem_cons, ih, List.mem_cons]
      tauto
    · rw [if_neg h]
      rw [List.mem_cons, List.mem_cons]

theorem mem_sortByLenDesc {y : TermDef} :
    ∀ {l : List TermDef}, y ∈ sortByLenDesc l ↔ y ∈ l := by
  intro l
  induction l with
  | nil => simp [sortByLenDesc]
  | cons x xs ih =>
    rw [sortByLenDesc, mem_insertByLen, ih, List.mem_cons]

/-- Pairwise relation between the tag split of the input and the pieces
of the output: a piece that sits at a tag position is the tag itself. -/
theorem forall2_tag_map (g : Bool × List Char → List Char) :
    ∀ segs : List (Bool × List Char),
      List.Forall₂ (fun seg piece => seg.1 = true → piece = seg.2)
        segs (segs.map (fun seg => if seg.1 then seg.2 else g seg))
  | [] => List.Forall₂.nil
  | seg :: rest =>
    List.Forall₂.cons
      (fun h => by
        show (if seg.1 = true then seg.2 else g seg) = seg.2
        rw [if_pos h])
      (forall2_tag_map g rest)

theorem annotateHtml_tag_pieces (terms : List TermDef)
    (entries : List (List Nat × TermInfo)) (html : String) :
    ∃ pieces : List (List Char),
      (annotateHtml terms entries html).toList = pieces.flatten ∧
      List.Forall₂ (fun seg piece => seg.1 = true → piece = seg.2)
        (splitTags html.toList) pieces := by
  refine ⟨(splitTags html.toList).map
      (fun seg => if seg.1 then seg.2
        else annotateText terms entries none seg.2), ?_, ?_⟩
  · rfl
  · exact forall2_tag_map
      (fun seg => annotateText terms entries none seg.2)
      (splitTags html.toList)

/-- C6: for every record list and every markup fragment, the tag split
reconstructs the input, and the annotated output is the concatenation of
one piece per segment of that split in which every tag segment appears
character for character as its own piece — only text segments are ever
rewritten, so a term-like substring inside a tag (e.g. an attribute
value) is never wrapped in a span. -/
theorem term_annotator_tag_safety (termDefs : List TermDef) (html : String) :
    ((splitTags html.toList).map (fun seg => seg.2)).flatten = html.toList ∧
    ∃ pieces : List (List Char),
      (buildTermAnnotator termDefs html).toList = pieces.flatten ∧
      List.Forall₂ (fun seg piece => seg.1 = true → piece = seg.2)
        (splitTags html.toList) pieces := by
  constructor
  · unfold splitTags
    have h := splitTagsGo_flatten html.toList.length [] html.toList
    simpa using h
  · unfold buildTermAnnotator
    cases hterms : (sortByLenDesc (termDefs.filter
        (fun d => !d.term.isEmpty && !d.slug.isEmpty))).isEmpty
    · simp only [Bool.false_eq_true, if_false]
      exact annotateHtml_tag_pieces _ _ html
    · simp only [if_true]
      refine ⟨(splitTags html.toList).map
          (fun seg => if seg.1 then seg.2 else seg.2), ?_,
        forall2_tag_map _ _⟩
      have hmap : (splitTags html.toList).map
          (fun seg => if seg.1 then seg.2 else seg.2) =
          (splitTags html.toList).map (fun seg => seg.2) :=
        List.map_congr_left (fun seg _ => ite_self seg.2)
      rw [hmap]
      unfold splitTags
      have h := splitTagsGo_flatten html.toList.length [] html.toList
      simpa using h.symm

/-! ### Claims C7 and C8: longest-match and collision behaviour -/

theorem isWordC_of_lowNat {a b : Char}
    (hab : lowNat a.toNat = lowNat b.toNat) (hb : isWordC b = true) :
    isWordC a = true := by
  simp only [isWordC, Bool.or_eq_true, Bool.and_eq_true,
    decide_eq_true_eq, beq_iff_eq] at hb ⊢
  unfold lowNat at hab
  split at hab <;> split at hab <;> omega

theorem lowEqC_false_of_word_mismatch {a b : Char}
    (ha : isWordC a = true) (hb : isWordC b = false) :
    lowEqC a b = false := by
  cases hl : lowEqC a b with
  | false => rfl
  | true =>
    exfalso
    unfold lowEqC at hl
    rw [beq_iff_eq] at hl
    have := isWordC_of_lowNat hl.symm ha
    rw [hb] at this
    exact Bool.noConfusion this

theorem getLast?_mem_chars {l : List Char} {c : Char}
    (h : l.getLast? = some c) : c ∈ l := by
  induction l with
  | nil => simp at h
  | cons a t ih =>
    cases t with
    | nil =>
      simp only [List.getLast?_singleton, Option.some.injEq] at h
      subst h
      exact List.mem_singleton_self a
    | cons b t2 =>
      rw [List.getLast?_cons_cons] at h
      exact List.mem_cons_of_mem a (ih h)

theorem isSepC_not_word {c : Char} (h : isSepC c = true) :
    isWordC c = false := by
  simp only [isSepC, sepChars, List.contains_cons, Bool.or_eq_true,
    beq_iff_eq, List.contains_nil, Bool.or_false] at h
  rcases h with rfl | rfl | rfl | rfl | rfl | rfl | rfl | rfl | rfl <;>
    decide

theorem isSepC_ne_lt {c : Char} (h : isSepC c = true) : ¬c = '<' := by
  simp only [isSepC, sepChars, List.contains_cons, Bool.or_eq_true,
    beq_iff_eq, List.contains_nil, Bool.or_false] at h
  rcases h with rfl | rfl | rfl | rfl | rfl | rfl | rfl | rfl | rfl <;>
    decide

theorem lowEqC_refl (c : Char) : lowEqC c c = true := by
  simp [lowEqC]

theorem matchTerm_space_step {ts s1 m rest : List Char} {d : Char}
    (hd : isWsC d = false)
    (hmt : matchTerm ts (d :: s1) = some (m, rest)) :
    matchTerm (' ' :: ts) (' ' :: d :: s1) = some (' ' :: m, rest) := by
  rw [matchTerm, if_pos rfl]
  have h1 : (' ' :: d :: s1).takeWhile isWsC = [' '] := by
    rw [List.takeWhile_cons, if_pos (by decide), List.takeWhile_cons,
      if_neg (by simp [hd])]
  have h2 : (' ' :: d :: s1).dropWhile isWsC = d :: s1 := by
    rw [List.dropWhile_cons, if_pos (by decide), List.dropWhile_cons,
      if_neg (by simp [hd])]
  simp [h1, h2, hmt]

theorem matchTerm_lit_step {c d : Char} {ts s1 m rest : List Char}
    (hc : ¬c = ' ') (heq : lowEqC c d = true)
    (hmt : matchTerm ts s1 = some (m, rest)) :
    matchTerm (c :: ts) (d :: s1) = some (d :: m, rest) := by
  rw [matchTerm, if_neg hc]
  simp [heq, hmt]

theorem matchTerm_self :
    ∀ {t : List Char}, noSpaceWs t = true →
      ∀ rest : List Char, matchTerm t (t ++ rest) = some (t, rest) := by
  intro t
  induction t with
  | nil => intro _ rest; rfl
  | cons c ts ih =>
    intro h rest
    rw [noSpaceWs, Bool.and_eq_true] at h
    obtain ⟨hc1, hts⟩ := h
    by_cases hc : c = ' '
    · subst hc
      rw [if_pos rfl] at hc1
      cases ts with
      | nil => simp at hc1
      | cons d ts2 =>
        have hd : isWsC d = false := by simpa using hc1
        exact matchTerm_space_step hd (ih hts rest)
    · exact matchTerm_lit_step hc (lowEqC_refl c) (ih hts rest)

theorem matchTerm_head_fail {tc : Char} {ts : List Char} {c : Char}
    {s1 : List Char} (hw : isWordC tc = true) (hc : isWordC c = false) :
    matchTerm (tc :: ts) (c :: s1) = none := by
  by_cases hsp : tc = ' '
  · subst hsp
    exact absurd hw (by decide)
  · rw [matchTerm, if_neg hsp]
    simp [lowEqC_false_of_word_mismatch hw hc]

theorem matchesAt_false_of_none {t : TermDef} {s : List Char}
    (h : matchTerm t.term.toList s = none) : matchesAt t s = false := by
  unfold matchesAt
  rw [h]

theorem lastO_cons {c : Char} {pre : List Char} {prev : Option Char} :
    lastO (c :: pre) prev = lastO pre (some c) := by
  unfold lastO
  cases pre with
  | nil => rfl
  | cons d pre2 =>
    rw [List.getLast?_cons_cons]
    cases hgl : (d :: pre2).getLast? with
    | none => simp at hgl
    | some e => rfl

theorem lastO_sep {pre : List Char} (h : ∀ c ∈ pre, isSepC c = true) :
    isWordO (lastO pre none) = false := by
  unfold lastO
  cases hl : pre.getLast? with
  | none => rfl
  | some c =>
    show isWordC c = false
    exact isSepC_not_word (h c (getLast?_mem_chars hl))

theorem annotateTextGo_sep_front {terms : List TermDef}
    {entries : List (List Nat × TermInfo)} :
    ∀ (pre : List Char) (fuel : Nat) (s : List Char) (prev : Option Char),
      (∀ c ∈ pre, isSepC c = true) → isWordO prev = false →
      annotateTextGo terms entries (pre.length + fuel) prev (pre ++ s) =
        pre ++ annotateTextGo terms entries fuel (lastO pre prev) s := by
  intro pre
  induction pre with
  | nil =>
    intro fuel s prev _ _
    simp only [List.length_nil, Nat.zero_add, List.nil_append]
    rfl
  | cons c pre ih =>
    intro fuel s prev hsep hprev
    have hcw : isWordC c = false :=
      isSepC_not_word (hsep c (List.mem_cons_self c pre))
    have hb : boundary prev (some c) = false := by
      unfold boundary
      rw [hprev, show isWordO (some c) = isWordC c from rfl, hcw]
      rfl
    have hnone : tryMatch terms prev (c :: (pre ++ s)) = none := by
      unfold tryMatch
      rw [show (c :: (pre ++ s)).head? = some c from rfl, hb]
      rfl
    show annotateTextGo terms entries ((c :: pre).length + fuel) prev
      (c :: (pre ++ s)) = _
    rw [show (c :: pre).length + fuel = (pre.length + fuel) + 1 by
      rw [List.length_cons]; omega]
    rw [annotateTextGo_cons_none hnone,
      ih fuel s (some c) (fun d hd => hsep d (List.mem_cons_of_mem c hd))
        (by show isWordC c = false; exact hcw),
      lastO_cons]
    rfl

theorem annotateTextGo_sep_all {terms : List TermDef}
    {entries : List (List Nat × TermInfo)}
    (hterms : ∀ t ∈ terms, isWordO t.term.toList.head? = true) :
    ∀ (fuel : Nat) (s : List Char) (prev : Option Char),
      (∀ c ∈ s, isSepC c = true) →
      annotateTextGo terms entries fuel prev s = s := by
  intro fuel
  induction fuel with
  | zero => intro s prev _; rw [annotateTextGo]
  | succ fuel ih =>
    intro s prev hsep
    cases s with
    | nil => rw [annotateTextGo]
    | cons c rest =>
      have hcw : isWordC c = false :=
        isSepC_not_word (hsep c (List.mem_cons_self c rest))
      have hnone : tryMatch terms prev (c :: rest) = none := by
        unfold tryMatch
        rw [show (c :: rest).head? = some c from rfl]
        cases hb : boundary prev (some c) with
        | false => rfl
        | true =>
          rw [if_pos rfl]
          apply tryAlts_eq_none
          intro t ht
          apply matchesAt_false_of_none
          cases htl : t.term.toList with
          | nil =>
            have := hterms t ht
            rw [htl] at this
            simp [isWordO] at this
          | cons tc ts2 =>
            have hw := hterms t ht
            rw [htl] at hw
            exact matchTerm_head_fail hw hcw
      rw [annotateTextGo_cons_none hnone,
        ih rest (some c) (fun d hd => hsep d (List.mem_cons_of_mem c hd))]

theorem wfTermB_parts {s : List Char} (h : wfTermB s = true) :
    s.isEmpty = false ∧ isWordO s.head? = true ∧
    isWordO s.getLast? = true ∧ noSpaceWs s = true ∧
    (∀ c ∈ s, ¬c = '<') := by
  unfold wfTermB at h
  simp only [Bool.and_eq_true, Bool.not_eq_true', List.all_eq_true,
    decide_eq_true_eq] at h
  exact ⟨h.1.1.1.1, h.1.1.1.2, h.1.1.2, h.1.2, h.2⟩

theorem tryMatch_first_term {t : TermDef} {ts : List TermDef}
    {prev : Option Char} {post : List Char}
    (hwf : wfTermB t.term.toList = true)
    (hprev : isWordO prev = false)
    (hpost : ∀ c ∈ post, isSepC c = true) :
    tryMatch (t :: ts) prev (t.term.toList ++ post) =
      some (t.term.toList, post) := by
  obtain ⟨hne, hhead, hlast, hnsw, _⟩ := wfTermB_parts hwf
  have hposthead : isWordO post.head? = false := by
    cases hp : post.head? with
    | none => rfl
    | some c =>
      show isWordC c = false
      cases post with
      | nil => simp at hp
      | cons c0 p0 =>
        rw [List.head?_cons, Option.some.injEq] at hp
        subst hp
        exact isSepC_not_word (hpost c0 (List.mem_cons_self c0 p0))
  have hheadapp : (t.term.toList ++ post).head? = t.term.toList.head? := by
    cases htl : t.term.toList with
    | nil => rw [htl] at hne; simp at hne
    | cons a l => rfl
  unfold tryMatch
  rw [hheadapp]
  have hb : boundary prev t.term.toList.head? = true := by
    unfold boundary
    rw [hprev, hhead]
    rfl
  rw [hb, if_pos rfl]
  unfold tryAlts
  rw [matchTerm_self hnsw post]
  have hguard : (!t.term.toList.isEmpty &&
      boundary t.term.toList.getLast? post.head?) = true := by
    rw [hne]
    unfold boundary
    rw [hlast, hposthead]
    rfl
  show (if (!t.term.toList.isEmpty &&
      boundary t.term.toList.getLast? post.head?) = true
    then some (t.term.toList, post)
    else tryAlts (t.term.toList ++ post) ts) = some (t.term.toList, post)
  rw [hguard, if_pos rfl]

theorem lookupLast_pair_ne {k1 k2 : List Nat} {i1 i2 : TermInfo}
    (hne : k1 ≠ k2) : lookupLast [(k2, i2), (k1, i1)] k2 = some i2 := by
  unfold lookupLast
  simp [hne]

theorem lookupLast_pair_dup {k : List Nat} {i1 i2 : TermInfo} :
    lookupLast [(k, i1), (k, i2)] k = some i2 := by
  unfold lookupLast
  simp

theorem string_length_lt_of_proper_sub {a b : String}
    {u v : List Char} (hb : b.toList = u ++ a.toList ++ v)
    (hne : a ≠ b) : a.length < b.length := by
  have hblen : b.length = u.length + a.length + v.length := by
    show b.data.length = u.length + a.data.length + v.length
    rw [show b.data = u ++ a.data ++ v from hb]
    simp [List.length_append]
    omega
  by_cases huv : u.length + v.length = 0
  · exfalso
    have hu : u = [] := List.eq_nil_of_length_eq_zero (by omega)
    have hv : v = [] := List.eq_nil_of_length_eq_zero (by omega)
    rw [hu, hv, List.nil_append, List.append_nil] at hb
    exact hne (congrArg String.mk hb).symm
  · omega

theorem filter_pair_keep {da db : TermDef}
    (ha : (!da.term.isEmpty && !da.slug.isEmpty) = true)
    (hb : (!db.term.isEmpty && !db.slug.isEmpty) = true) :
    [da, db].filter (fun d => !d.term.isEmpty && !d.slug.isEmpty) =
      [da, db] := by
  simp only [List.filter_cons]
  rw [if_pos ha, if_pos hb]
  rfl

theorem sort_pair_ge {da db : TermDef}
    (h : ¬da.term.length < db.term.length) :
    sortByLenDesc [da, db] = [da, db] := by
  rw [sortByLenDesc, sortByLenDesc, sortByLenDesc]
  rw [show insertByLen db [] = [db] from rfl, insertByLen, if_neg h]

theorem sort_pair_lt {da db : TermDef}
    (h : da.term.length < db.term.length) :
    sortByLenDesc [da, db] = [db, da] := by
  rw [sortByLenDesc, sortByLenDesc, sortByLenDesc]
  rw [show insertByLen db [] = [db] from rfl, insertByLen, if_pos h]
  rfl

theorem nonempty_term_keep {d : TermDef} (ht : d.term.toList ≠ [])
    (hs : d.slug ≠ "") :
    (!d.term.isEmpty && !d.slug.isEmpty) = true := by
  have h1 : d.term ≠ "" := by
    intro h
    exact ht (by rw [h]; rfl)
  have e1 : d.term.isEmpty = false := by
    cases he : d.term.isEmpty
    · rfl
    · exact absurd (String.isEmpty_iff d.term |>.mp he) h1
  have e2 : d.slug.isEmpty = false := by
    cases he : d.slug.isEmpty
    · rfl
    · exact absurd (String.isEmpty_iff d.slug |>.mp he) hs
  rw [e1, e2]
  rfl

/-- The core scan shared by C7 and C8: with `[t2, t1]` the sorted term
list (longest first) and the occurrence text equal to `t2.term`, the
whole occurrence becomes exactly one span whose attributes come from the
lookup table. -/
theorem annotateText_occurrence {t1 t2 : TermDef}
    {entries : List (List Nat × TermInfo)} {info : TermInfo}
    {pre post : List Char}
    (hwf : wfTermB t2.term.toList = true)
    (h1head : isWordO t1.term.toList.head? = true)
    (hpre : ∀ c ∈ pre, isSepC c = true)
    (hpost : ∀ c ∈ post, isSepC c = true)
    (hlook : lookupLast entries (lowerKey t2.term.toList) = some info) :
    annotateText [t2, t1] entries none
        (pre ++ (t2.term.toList ++ post)) =
      pre ++ (spanFor info t2.term.toList ++ post) := by
  obtain ⟨hne, hhead, hlast, hnsw, _⟩ := wfTermB_parts hwf
  show annotateTextGo [t2, t1] entries
    (pre ++ (t2.term.toList ++ post)).length none
    (pre ++ (t2.term.toList ++ post)) = _
  rw [show (pre ++ (t2.term.toList ++ post)).length =
    pre.length + (t2.term.toList ++ post).length from
    List.length_append _ _]
  rw [annotateTextGo_sep_front pre ((t2.term.toList ++ post).length)
    (t2.term.toList ++ post) none hpre rfl]
  have hprevw : isWordO (lastO pre none) = false := lastO_sep hpre
  have htm : tryMatch [t2, t1] (lastO pre none) (t2.term.toList ++ post) =
      some (t2.term.toList, post) :=
    tryMatch_first_term hwf hprevw hpost
  have hterms : ∀ t ∈ [t2, t1], isWordO t.term.toList.head? = true := by
    intro t ht
    rcases List.mem_cons.mp ht with rfl | ht2
    · exact hhead
    · rcases List.mem_cons.mp ht2 with rfl | ht3
      · exact h1head
      · simp at ht3
  cases htl : t2.term.toList with
  | nil => rw [htl] at hne; simp at hne
  | cons c0 l0 =>
    rw [htl] at htm
    have htm2 : tryMatch [t2, t1] (lastO pre none) (c0 :: (l0 ++ post)) =
        some (c0 :: l0, post) := htm
    rw [List.cons_append]
    rw [show (c0 :: (l0 ++ post)).length = (l0 ++ post).length + 1 from
      List.length_cons _ _]
    rw [annotateTextGo_cons_some htm2
      (by rw [List.length_append]; omega)]
    rw [annotateTextGo_sep_all hterms (l0 ++ post).length post
      ((c0 :: l0).getLast?) hpost]
    have hrm : replaceMatch entries (c0 :: l0) =
        spanFor info (c0 :: l0) := by
      unfold replaceMatch
      rw [show lowerKey (c0 :: l0) = lowerKey t2.term.toList by rw [htl],
        hlook]
    rw [hrm]

/-- Witness for C6: on a paragraph whose tag carries the term in an
attribute and whose text contains the term, the theorem applies, the
text occurrence is wrapped, both tags survive verbatim, and a fragment
whose only term-like substring sits inside an attribute is returned
unchanged. -/
theorem term_annotator_tag_safety_witness :
    (((splitTags ("<p class=\"author\">author</p>" : String).toList).map
        (fun seg => seg.2)).flatten =
      ("<p class=\"author\">author</p>" : String).toList ∧
     ∃ pieces : List (List Char),
       (buildTermAnnotator [(⟨"author", "author", "101"⟩ : TermDef)]
         "<p class=\"author\">author</p>").toList = pieces.flatten ∧
       List.Forall₂ (fun seg piece => seg.1 = true → piece = seg.2)
         (splitTags ("<p class=\"author\">author</p>" : String).toList)
         pieces) ∧
    buildTermAnnotator [(⟨"author", "author", "101"⟩ : TermDef)]
        "<p class=\"author\">author</p>" =
      "<p class=\"author\"><span class=\"def-term\" data-slug=\"author\" data-def-source=\"101\">author</span></p>" ∧
    buildTermAnnotator [(⟨"author", "author", "101"⟩ : TermDef)]
        "<a title=\"author\">see here</a>" =
      "<a title=\"author\">see here</a>" :=
  ⟨term_annotator_tag_safety [(⟨"author", "author", "101"⟩ : TermDef)]
      "<p class=\"author\">author</p>",
   by decide, by decide⟩

/-- C7: given two records where one term is a proper substring of the
other, annotating an occurrence of the longer phrase (in non-word
context) produces exactly one span covering the full longer phrase, with
the longer record's attributes — never a nested or partial span for the
shorter term — because terms are sorted longest-first before the
alternation is built. -/
theorem longest_match_single_span
    (d1 d2 : TermDef) (l : List TermDef) (pre post : List Char)
    (horder : l = [d1, d2] ∨ l = [d2, d1])
    (hsub : ∃ u v, d2.term.toList = u ++ d1.term.toList ++ v)
    (hne12 : d1.term ≠ d2.term)
    (h1slug : d1.slug ≠ "") (h2slug : d2.slug ≠ "")
    (h1ne : d1.term.toList ≠ [])
    (h1head : isWordO d1.term.toList.head? = true)
    (hwf : wfTermB d2.term.toList = true)
    (hpre : ∀ c ∈ pre, isSepC c = true)
    (hpost : ∀ c ∈ post, isSepC c = true) :
    buildTermAnnotator l ⟨pre ++ (d2.term.toList ++ post)⟩ =
      ⟨pre ++ (spanFor ⟨d2.slug, d2.source⟩ d2.term.toList ++ post)⟩ := by
  obtain ⟨hne2, hhead2, _, _, hnolt2⟩ := wfTermB_parts hwf
  have h2tl : d2.term.toList ≠ [] := by
    intro h
    rw [h] at hne2
    simp at hne2
  have hlen : d1.term.length < d2.term.length := by
    obtain ⟨u, v, huv⟩ := hsub
    exact string_length_lt_of_proper_sub huv hne12
  have hfila := nonempty_term_keep h1ne h1slug
  have hfilb := nonempty_term_keep h2tl h2slug
  have hsort : sortByLenDesc (l.filter
      (fun d => !d.term.isEmpty && !d.slug.isEmpty)) = [d2, d1] := by
    rcases horder with rfl | rfl
    · rw [filter_pair_keep hfila hfilb, sort_pair_lt hlen]
    · rw [filter_pair_keep hfilb hfila, sort_pair_ge (by omega)]
  have hkey : lowerKey d1.term.toList ≠ lowerKey d2.term.toList := by
    intro hk
    have hlc := congrArg List.length hk
    simp only [lowerKey, List.length_map] at hlc
    have h2 : d1.term.length = d2.term.length := hlc
    omega
  unfold buildTermAnnotator
  rw [hsort]
  show annotateHtml [d2, d1] ([d2, d1].map (fun t =>
    (lowerKey t.term.toList, (⟨t.slug, t.source⟩ : TermInfo))))
    ⟨pre ++ (d2.term.toList ++ post)⟩ = _
  unfold annotateHtml
  have hnolt : ∀ c ∈ pre ++ (d2.term.toList ++ post), ¬c = '<' := by
    intro c hc
    rcases List.mem_append.mp hc with hg | hg
    · exact isSepC_ne_lt (hpre c hg)
    · rcases List.mem_append.mp hg with hg2 | hg2
      · exact hnolt2 c hg2
      · exact isSepC_ne_lt (hpost c hg2)
  rw [show (⟨pre ++ (d2.term.toList ++ post)⟩ : String).toList =
    pre ++ (d2.term.toList ++ post) from rfl]
  rw [splitTags_no_lt hnolt]
  simp only [List.map_cons, List.map_nil, Bool.false_eq_true, if_false,
    List.flatten_cons, List.flatten_nil, List.append_nil]
  have hlook : lookupLast
      [(lowerKey d2.term.toList, (⟨d2.slug, d2.source⟩ : TermInfo)),
       (lowerKey d1.term.toList, (⟨d1.slug, d1.source⟩ : TermInfo))]
      (lowerKey d2.term.toList) = some ⟨d2.slug, d2.source⟩ :=
    lookupLast_pair_ne hkey
  rw [annotateText_occurrence hwf h1head hpre hpost hlook]

/-- Witness for C7: the spec's example records `author` and
`joint work of authorship`; annotating the longer phrase followed by a
period yields exactly one span covering the whole phrase. -/
theorem longest_match_single_span_witness :
    buildTermAnnotator
      [(⟨"author", "author", "101"⟩ : TermDef),
       (⟨"joint work of authorship", "joint-work-of-authorship",
         "101"⟩ : TermDef)]
      "joint work of authorship." =
    "<span class=\"def-term\" data-slug=\"joint-work-of-authorship\" data-def-source=\"101\">joint work of authorship</span>." := by
  have h := longest_match_single_span
    ⟨"author", "author", "101"⟩
    ⟨"joint work of authorship", "joint-work-of-authorship", "101"⟩
    [⟨"author", "author", "101"⟩,
     ⟨"joint work of authorship", "joint-work-of-authorship", "101"⟩]
    [] ['.'] (Or.inl rfl)
    ⟨"joint work of ".toList, "ship".toList, by decide⟩
    (by decide) (by decide) (by decide) (by decide) (by decide)
    (by decide) (by decide) (by decide)
  exact h

/-- C8, counterexample: two records from different sources with distinct
slugs and the same term; the single span the annotator produces carries
the slug and source of the LAST record in the merge order (`115e`), not
of the first-priority source (`101`). -/
theorem colliding_source_counterexample :
    buildTermAnnotator [(⟨"work", "work-101", "101"⟩ : TermDef),
      (⟨"work", "work-115e", "115e"⟩ : TermDef)] "the work here" =
      "the <span class=\"def-term\" data-slug=\"work-115e\" data-def-source=\"115e\">work</span> here" ∧
    ("the <span class=\"def-term\" data-slug=\"work-115e\" data-def-source=\"115e\">work</span> here" : String) ≠
      "the <span class=\"def-term\" data-slug=\"work-101\" data-def-source=\"101\">work</span> here" := by
  constructor
  · decide
  · decide

/-- C8, amended: with colliding (case-insensitively equal) terms from two
sources with distinct slugs, the annotator produces exactly one span per
occurrence, with slug and source taken from the LAST colliding record in
the merge order — the lookup table keeps the last entry per lowercased
term, so the later-merged source wins. -/
theorem colliding_terms_single_span
    (d1 d2 : TermDef) (pre post : List Char)
    (hcollide : lowerKey d1.term.toList = lowerKey d2.term.toList)
    (hslugs : d1.slug ≠ d2.slug)
    (h1slug : d1.slug ≠ "") (h2slug : d2.slug ≠ "")
    (hwf : wfTermB d1.term.toList = true)
    (hpre : ∀ c ∈ pre, isSepC c = true)
    (hpost : ∀ c ∈ post, isSepC c = true) :
    buildTermAnnotator [d1, d2] ⟨pre ++ (d1.term.toList ++ post)⟩ =
      ⟨pre ++ (spanFor ⟨d2.slug, d2.source⟩ d1.term.toList ++ post)⟩ := by
  obtain ⟨hne1, hhead1, _, _, hnolt1⟩ := wfTermB_parts hwf
  have h1tl : d1.term.toList ≠ [] := by
    intro h
    rw [h] at hne1
    simp at hne1
  have hleneq : d1.term.length = d2.term.length := by
    have hlc := congrArg List.length hcollide
    simp only [lowerKey, List.length_map] at hlc
    exact hlc
  have h2tl : d2.term.toList ≠ [] := by
    intro h
    have : d2.term.length = 0 := by
      show d2.term.toList.length = 0
      rw [h]
      rfl
    have h1len : d1.term.length ≠ 0 := by
      show d1.term.toList.length ≠ 0
      intro hz
      exact h1tl (List.eq_nil_of_length_eq_zero hz)
    omega
  have h2head : isWordO d2.term.toList.head? = true := by
    cases hl1 : d1.term.toList with
    | nil => exact absurd hl1 h1tl
    | cons a t1 =>
      cases hl2 : d2.term.toList with
      | nil => exact absurd hl2 h2tl
      | cons b t2 =>
        rw [hl1, hl2] at hcollide
        simp only [lowerKey, List.map_cons, List.cons.injEq] at hcollide
        rw [hl1] at hhead1
        show isWordC b = true
        exact isWordC_of_lowNat hcollide.1.symm hhead1
  have hsort : sortByLenDesc ([d1, d2].filter
      (fun d => !d.term.isEmpty && !d.slug.isEmpty)) = [d1, d2] := by
    rw [filter_pair_keep (nonempty_term_keep h1tl h1slug)
      (nonempty_term_keep h2tl h2slug), sort_pair_ge (by omega)]
  unfold buildTermAnnotator
  rw [hsort]
  show annotateHtml [d1, d2] ([d1, d2].map (fun t =>
    (lowerKey t.term.toList, (⟨t.slug, t.source⟩ : TermInfo))))
    ⟨pre ++ (d1.term.toList ++ post)⟩ = _
  unfold annotateHtml
  have hnolt : ∀ c ∈ pre ++ (d1.term.toList ++ post), ¬c = '<' := by
    intro c hc
    rcases List.mem_append.mp hc with hg | hg
    · exact isSepC_ne_lt (hpre c hg)
    · rcases List.mem_append.mp hg with hg2 | hg2
      · exact hnolt1 c hg2
      · exact isSepC_ne_lt (hpost c hg2)
  rw [show (⟨pre ++ (d1.term.toList ++ post)⟩ : String).toList =
    pre ++ (d1.term.toList ++ post) from rfl]
  rw [splitTags_no_lt hnolt]
  simp only [List.map_cons, List.map_nil, Bool.false_eq_true, if_false,
    List.flatten_cons, List.flatten_nil, List.append_nil]
  have hlook : lookupLast
      [(lowerKey d1.term.toList, (⟨d1.slug, d1.source⟩ : TermInfo)),
       (lowerKey d2.term.toList, (⟨d2.slug, d2.source⟩ : TermInfo))]
      (lowerKey d1.term.toList) = some ⟨d2.slug, d2.source⟩ := by
    rw [hcollide]
    exact lookupLast_pair_dup
  rw [annotateText_occurrence hwf h2head hpre hpost hlook]

/-- Witness for C8 (amended): colliding `work` records from §101 and
§115(e); the single span carries the later source's attributes. -/
theorem colliding_terms_single_span_witness :
    buildTermAnnotator [(⟨"work", "work-101", "101"⟩ : TermDef),
      (⟨"work", "work-115e", "115e"⟩ : TermDef)] "work." =
    "<span class=\"def-term\" data-slug=\"work-115e\" data-def-source=\"115e\">work</span>." := by
  have h := colliding_terms_single_span
    ⟨"work", "work-101", "101"⟩ ⟨"work", "work-115e", "115e"⟩
    [] ['.'] (by decide) (by decide) (by decide) (by decide) (by decide)
    (by decide) (by decide)
  exact h

theorem parseSec101Go_shape :
    ∀ (fuel : Nat) (s : List Char) (d : Sec101Def),
      d ∈ parseSec101Go fuel s →
      ∃ ic inner, d = mkSec101Def ic inner := by
  intro fuel
  induction fuel with
  | zero => intro s d hd; rw [parseSec101Go] at hd; simp at hd
  | succ fuel ih =>
    intro s d hd
    cases s with
    | nil => rw [parseSec101Go] at hd; simp at hd
    | cons c rest =>
      rw [parseSec101Go] at hd
      cases hm : matchP (c :: rest) with
      | none =>
        rw [hm] at hd
        exact ih rest d hd
      | some pr =>
        obtain ⟨ic, inner, after⟩ := pr
        rw [hm] at hd
        rcases List.mem_cons.mp hd with rfl | hd2
        · exact ⟨ic, inner, rfl⟩
        · exact ih after d hd2

theorem mkSec101Def_indentClass (ic inner : List Char) :
    (mkSec101Def ic inner).indentClass = ⟨ic⟩ := by
  unfold mkSec101Def
  by_cases hic : ic = "indent1".toList
  · rw [if_pos hic]
    cases hq : findQuoted inner
    · rfl
    · rfl
  · rw [if_neg hic]

theorem mkSec101Def_not_indent1 {ic inner : List Char}
    (h : (mkSec101Def ic inner).indentClass ≠ "indent1") :
    (mkSec101Def ic inner).term = none ∧
    (mkSec101Def ic inner).slug = none := by
  have hic : ic ≠ "indent1".toList := by
    intro he
    apply h
    rw [mkSec101Def_indentClass, he]
    rfl
  unfold mkSec101Def
  rw [if_neg hic]
  exact ⟨rfl, rfl⟩

theorem mkSec101Def_term_slug {ic inner : List Char} {t : String}
    (h : (mkSec101Def ic inner).term = some t) :
    (mkSec101Def ic inner).indentClass = "indent1" ∧
    (mkSec101Def ic inner).slug = some (slugify t.toList) := by
  unfold mkSec101Def at h ⊢
  by_cases hic : ic = "indent1".toList
  · rw [if_pos hic] at h ⊢
    cases hq : findQuoted inner with
    | none =>
      rw [hq] at h
      have h2 : (none : Option String) = some t := h
      exact absurd h2 (by simp)
    | some term =>
      rw [hq] at h
      have h2 : some (⟨term⟩ : String) = some t := h
      obtain rfl := (Option.some.inj h2)
      constructor
      · show (⟨ic⟩ : String) = "indent1"
        rw [hic]
        rfl
      · rfl
  · rw [if_neg hic] at h
    have h2 : (none : Option String) = some t := h
    exact absurd h2 (by simp)

/-- C9: the concrete `“motion picture”` paragraph yields exactly one
record with term `motion picture` and slug `motion-picture`; only
`indent1` paragraphs carry a term; and every extracted term's slug is the
lowercased term with non-alphanumeric runs collapsed to single hyphens
and border hyphens stripped. -/
theorem parseSec101_scenario :
    parseSec101Defs
      "<p class=\"indent1\">“motion picture” means audiovisual works…</p>" =
      [⟨"indent1", "“motion picture” means audiovisual works…",
        some "motion picture", some "motion-picture"⟩] ∧
    (∀ (html : String) (d : Sec101Def), d ∈ parseSec101Defs html →
      d.indentClass ≠ "indent1" → d.term = none ∧ d.slug = none) ∧
    (∀ (html : String) (d : Sec101Def) (t : String),
      d ∈ parseSec101Defs html → d.term = some t →
      d.indentClass = "indent1" ∧ d.slug = some (slugify t.toList)) := by
  refine ⟨by decide, ?_, ?_⟩
  · intro html d hd hic
    obtain ⟨ic, inner, rfl⟩ :=
      parseSec101Go_shape html.toList.length html.toList d hd
    exact mkSec101Def_not_indent1 hic
  · intro html d t hd ht
    obtain ⟨ic, inner, rfl⟩ :=
      parseSec101Go_shape html.toList.length html.toList d hd
    exact mkSec101Def_term_slug ht

/-- Witness for C9: the slug normalization applied to the scenario's
record via the theorem. -/
theorem parseSec101_scenario_witness :
    ((⟨"indent1", "“motion picture” means audiovisual works…",
      some "motion picture", some "motion-picture"⟩ : Sec101Def)).indentClass
        = "indent1" ∧
    ((⟨"indent1", "“motion picture” means audiovisual works…",
      some "motion picture", some "motion-picture"⟩ : Sec101Def)).slug =
        some (slugify ("motion picture").toList) :=
  parseSec101_scenario.2.2
    "<p class=\"indent1\">“motion picture” means audiovisual works…</p>"
    ⟨"indent1", "“motion picture” means audiovisual works…",
      some "motion picture", some "motion-picture"⟩
    "motion picture" (by decide) rfl

end T17

